import Mathlib

/-!
Verification of the incremental indexing and retrieval engine of a
personal-knowledge-management RAG plugin.

The development shallowly embeds the TypeScript sources:
 - `RecursiveCharacterTextSplitter` (chunker.ts): `findOcc`, `splitOnSep`,
   `chooseSep`, `evict`, `mergeStep`, `mergeSplits`, `goSplits`, `splitText`.
 - `VectorStore` (vectorStore.ts): an insertion-ordered association list models
   the JS `Map` (set keeps position, new keys append); `cosineSimilarity`,
   `search`, persistence (`snapshotOf`/`saveToDisk`/`loadData`).
 - `EmbedPipeline` (embedPipeline.ts): `chunkAndEmbed`, the per-file body of
   `embedVault` (`embedVaultFileStep`) and the full run (`embedVaultRun`).

JS numbers used for vector arithmetic are modelled as real numbers; counters
and lengths are `Nat`, and the mutable `total` accumulator of the merge loop is
`Int` (it is compared against 0 in the source). Strings handled character-wise
by the splitter are modelled as `List Char`; metadata strings stay `String`.
An exception thrown by the embedding backend is modelled as `Option.none`.
-/

/-! ### Text splitter (chunker.ts) -/

/-- Index of the leftmost occurrence of `sep` in `text` (as `String.indexOf`
used implicitly by `String.split`); `none` when `sep` does not occur. -/
def findOcc (sep : List Char) : List Char → Option Nat
  | [] => if sep.isPrefixOf ([] : List Char) then some 0 else none
  | c :: rest =>
    if sep.isPrefixOf (c :: rest) then some 0
    else (findOcc sep rest).map (· + 1)

/-- Fueled worker for `splitOnSep`; the fuel only serves termination and is
always instantiated with more than `text.length`. -/
def splitOnSepAux : Nat → List Char → List Char → List (List Char)
  | 0, _, text => [text]
  | fuel + 1, sep, text =>
    match findOcc sep text with
    | none => [text]
    | some i => text.take i :: splitOnSepAux fuel sep (text.drop (i + sep.length))

/-- JS `text.split(separator)` for a non-empty separator: cut at each
non-overlapping leftmost occurrence. -/
def splitOnSep (sep text : List Char) : List (List Char) :=
  splitOnSepAux (text.length + 1) sep text

/-- The separator-selection loop of `_splitText`: first `""` wins immediately
(without slicing the remaining separators), otherwise the first separator
contained in `text` wins together with the remaining lower-priority ones,
and if none matches the last separator is chosen with no remaining ones. -/
def chooseSep (text : List Char) : List (List Char) → List Char × List (List Char)
  | [] => ([], [])
  | s :: rest =>
    if s = [] then ([], [])
    else if s <:+: text then (s, rest)
    else
      match rest with
      | [] => (s, [])
      | _ :: _ => chooseSep text rest

/-- JS `String.prototype.trim` on the character list. -/
def trimChars (l : List Char) : List Char :=
  ((l.dropWhile Char.isWhitespace).reverse.dropWhile Char.isWhitespace).reverse

/-- JS `Array.prototype.join(separator)`. -/
def joinSep (sep : List Char) : List (List Char) → List Char
  | [] => []
  | [p] => p
  | p :: q :: rest => p ++ sep ++ joinSep sep (q :: rest)

/-- `_joinDocs`: join with the separator, trim, and drop the result when the
trimmed text is empty. -/
def joinDocs (sep : List Char) (docs : List (List Char)) : Option (List Char) :=
  let t := trimChars (joinSep sep docs)
  if t = [] then none else some t

/-- The overlap-eviction `while` loop of `_mergeSplits`: pop splits from the
front of the buffer while the running total exceeds the overlap, or while the
incoming split would still overflow the chunk size; stop when the buffer
empties. `len` and `sepLen` are fixed for the whole loop, as in the source. -/
def evict (cs co : Nat) (len sepLen : Int) (sep : List Char) :
    List (List Char) → Int → List (List Char) × Int
  | [], total => ([], total)
  | p :: rest, total =>
    if total > (co : Int) ∨ (total + len + sepLen > (cs : Int) ∧ total > 0) then
      evict cs co len sepLen sep rest
        (total - ((p.length : Int) + (if rest ≠ [] then (sep.length : Int) else 0)))
    else (p :: rest, total)

/-- State of the `_mergeSplits` loop: emitted docs, current buffer, and the
mutable running total. -/
structure MState where
  docs : List (List Char)
  buf : List (List Char)
  total : Int

/-- One iteration of the `_mergeSplits` loop body for the incoming split `s`. -/
def mergeStep (cs co : Nat) (sep : List Char) (st : MState) (s : List Char) : MState :=
  let len : Int := s.length
  let sepLen : Int := if st.buf ≠ [] then (sep.length : Int) else 0
  if st.total + len + sepLen > (cs : Int) ∧ st.buf ≠ [] then
    let docs1 :=
      match joinDocs sep st.buf with
      | none => st.docs
      | some d => st.docs ++ [d]
    let ev := evict cs co len sepLen sep st.buf st.total
    ⟨docs1, ev.1 ++ [s], ev.2 + len + sepLen⟩
  else ⟨st.docs, st.buf ++ [s], st.total + len + sepLen⟩

/-- `_mergeSplits`: pack a run of small splits greedily, emitting buffers and
keeping an overlap seed, then flush the remaining buffer. -/
def mergeSplits (cs co : Nat) (sep : List Char) (splits : List (List Char)) :
    List (List Char) :=
  let st := splits.foldl (mergeStep cs co sep) ⟨[], [], 0⟩
  match joinDocs sep st.buf with
  | none => st.docs
  | some d => st.docs ++ [d]

/-- The split-processing loop of `_splitText`: small splits accumulate into
`good`; an oversized split first flushes the pending run through
`_mergeSplits`, then is emitted verbatim when no lower-priority separators
remain (`recurse = none`) or handed to the recursive call. -/
def goSplits (cs co : Nat) (sep : List Char)
    (recurse : Option (List Char → List (List Char))) :
    List (List Char) → List (List Char) → List (List Char)
  | [], good => if good = [] then [] else mergeSplits cs co sep good
  | s :: rest, good =>
    if s.length < cs then goSplits cs co sep recurse rest (good ++ [s])
    else
      (if good = [] then [] else mergeSplits cs co sep good) ++
        (match recurse with | none => [s] | some f => f s) ++
        goSplits cs co sep recurse rest []

/-- `_splitText` with fuel on the recursion depth; the recursion always
descends to a strictly shorter separator list, so `seps.length + 1` fuel
suffices. An empty chosen separator (JS falsy) triggers the character-level
split `Array.from(text)`; otherwise the pieces of `text.split(sep)` are kept
after discarding empty strings. -/
def splitTextAux : Nat → Nat → Nat → List (List Char) → List Char → List (List Char)
  | 0, _, _, _, _ => []
  | fuel + 1, cs, co, seps, text =>
    let sn := chooseSep text seps
    let splits :=
      if sn.1 = [] then text.map (fun c => [c])
      else (splitOnSep sn.1 text).filter (fun p => !p.isEmpty)
    let recurse :=
      match sn.2 with
      | [] => none
      | _ :: _ => some (splitTextAux fuel cs co sn.2)
    goSplits cs co sn.1 recurse splits []

/-- `RecursiveCharacterTextSplitter.splitText`. -/
def splitText (cs co : Nat) (seps : List (List Char)) (text : List Char) :
    List (List Char) :=
  splitTextAux (seps.length + 1) cs co seps text

/-- `DEFAULTS.CHUNK_SEPARATORS` from constants.ts. -/
def CHUNK_SEPARATORS : List (List Char) :=
  ["\n## ".data, "\n### ".data, "\n\n".data, "\n1. ".data, "\n- ".data,
   "\n".data, ". ".data, " ".data]

/-! ### Data model (types.ts) -/

/-- `ChunkMetadata` from types.ts.  The interface declares a `tags` field;
the pipeline's chunk construction omits it (see `chunkAndEmbed`). -/
structure ChunkMetadata where
  uuid : String
  modified : String
  title : String
  description : String
  aliases : String
  tags : String
  outgoingLinks : String
  chunkIndex : Nat
  totalChunks : Nat
  filePath : String

/-- `StoredChunk` from types.ts. -/
structure StoredChunk where
  id : String
  embedding : List ℝ
  text : String
  metadata : ChunkMetadata

/-- `VectorStoreData`, the persisted snapshot shape. -/
structure VectorStoreData where
  version : Nat
  modelName : String
  chunkSize : Nat
  chunkOverlap : Nat
  chunks : List StoredChunk

/-- `ParsedNote` from types.ts. -/
structure ParsedNote where
  uuid : String
  modified : String
  title : String
  description : String
  aliases : List String
  tags : List String
  content : String
  filePath : String
  outgoingLinks : List String

/-- `EmbedStats` from types.ts. -/
structure EmbedStats where
  new : Nat
  updated : Nat
  unchanged : Nat
  skipped : Nat
  deleted : Nat
  errors : Nat

/-- The pipeline settings the claims depend on (a slice of `PkmRagSettings`). -/
structure EmbedSettings where
  embedModel : String
  chunkSize : Nat
  chunkOverlap : Nat
  minChunkLength : Nat

/-! ### Insertion-ordered map helpers (JS `Map` semantics) -/

/-- `Map.get`. -/
def lookupList {β : Type} (m : List (String × β)) (k : String) : Option β :=
  (m.find? (fun p => p.1 == k)).map (fun p => p.2)

/-- `Map.set`: overwriting keeps the original position, new keys append. -/
def mapSet {β : Type} (m : List (String × β)) (k : String) (v : β) :
    List (String × β) :=
  if m.any (fun p => p.1 == k) then
    m.map (fun p => if p.1 = k then (k, v) else p)
  else m ++ [(k, v)]

/-- `Map.delete`. -/
def mapDelete {β : Type} (m : List (String × β)) (k : String) :
    List (String × β) :=
  m.filter (fun p => !(p.1 == k))

/-! ### VectorStore (vectorStore.ts) -/

/-- The in-memory state of the store; both maps iterate in insertion order. -/
structure VectorStore where
  chunks : List (String × StoredChunk)
  uuidIndex : List (String × List String)
  dirty : Bool
  storedModelName : String
  storedChunkSize : Nat
  storedChunkOverlap : Nat

def emptyStore : VectorStore := ⟨[], [], false, "", 0, 0⟩

def VECTOR_STORE_VERSION : Nat := 1

/-- `cosineSimilarity`.  The loop runs over `a`'s indices; the model is
intended for equal-length inputs (in JS, an out-of-range read of `b` would
produce `NaN`, which the real-number model cannot represent). -/
noncomputable def cosineSimilarity (a b : List ℝ) : ℝ :=
  let dot := ((a.zip b).map (fun p => p.1 * p.2)).sum
  let normA := (a.map (fun x => x * x)).sum
  let normB := ((b.take a.length).map (fun x => x * x)).sum
  let denom := Real.sqrt (normA * normB)
  if denom = 0 then 0 else dot / denom

/-- Dot product over paired entries, used to state the cosine claim. -/
noncomputable def dotList (a b : List ℝ) : ℝ :=
  ((a.zip b).map (fun p => p.1 * p.2)).sum

/-- Euclidean norm of a vector. -/
noncomputable def normV (a : List ℝ) : ℝ :=
  Real.sqrt ((a.map (fun x => x * x)).sum)

def VectorStore.validateConfig (s : VectorStore) (modelName : String)
    (chunkSize chunkOverlap : Nat) : Bool :=
  s.chunks.isEmpty ||
    (s.storedModelName == modelName && s.storedChunkSize == chunkSize &&
      s.storedChunkOverlap == chunkOverlap)

/-- `setConfig`: assigns the three stored fields; the source does not touch
the dirty flag here. -/
def VectorStore.setConfig (s : VectorStore) (modelName : String)
    (chunkSize chunkOverlap : Nat) : VectorStore :=
  { s with storedModelName := modelName, storedChunkSize := chunkSize,
           storedChunkOverlap := chunkOverlap }

/-- `clear`. -/
def VectorStore.clear (s : VectorStore) : VectorStore :=
  { s with chunks := [], uuidIndex := [], dirty := true }

/-- `deleteByUuid`: unknown uuids are a strict no-op (dirty untouched). -/
def VectorStore.deleteByUuid (s : VectorStore) (uuid : String) : VectorStore :=
  match lookupList s.uuidIndex uuid with
  | none => s
  | some ids =>
    { s with chunks := ids.foldl (fun m id => mapDelete m id) s.chunks,
             uuidIndex := mapDelete s.uuidIndex uuid,
             dirty := true }

/-- `upsertChunks`: empty input is a no-op; otherwise delete the note's prior
chunks, insert the new ones, rebuild the secondary index entry, mark dirty. -/
def VectorStore.upsertChunks (s : VectorStore) (cks : List StoredChunk) : VectorStore :=
  match cks with
  | [] => s
  | c0 :: _ =>
    let uuid := c0.metadata.uuid
    let s1 := s.deleteByUuid uuid
    { s1 with chunks := cks.foldl (fun m c => mapSet m c.id c) s1.chunks,
              uuidIndex := mapSet s1.uuidIndex uuid (cks.map (fun c => c.id)),
              dirty := true }

/-- `getByUuid`: `ids.map(get!).filter(Boolean)` keeps exactly the ids that
resolve, i.e. a `filterMap`. -/
def VectorStore.getByUuid (s : VectorStore) (uuid : String) : List StoredChunk :=
  match lookupList s.uuidIndex uuid with
  | none => []
  | some ids => ids.filterMap (fun id => lookupList s.chunks id)

/-- `getEmbeddedState`: uuid to the `modified` token of the chunk stored under
the first id of the note's id list. -/
def VectorStore.getEmbeddedState (s : VectorStore) : List (String × String) :=
  s.uuidIndex.filterMap (fun p =>
    match p.2 with
    | [] => none
    | id0 :: _ =>
      match lookupList s.chunks id0 with
      | none => none
      | some c => some (p.1, c.metadata.modified))

/-- `updateFilePath`: rewrites matching chunk metadata; dirty is set inside
the loop, hence only when at least one chunk matches. -/
def VectorStore.updateFilePath (s : VectorStore) (oldPath newPath : String) :
    VectorStore :=
  let hit := s.chunks.any (fun p => p.2.metadata.filePath == oldPath)
  { s with
    chunks := s.chunks.map (fun p =>
      if p.2.metadata.filePath = oldPath then
        (p.1, { p.2 with metadata := { p.2.metadata with filePath := newPath } })
      else p),
    dirty := if hit then true else s.dirty }

/-- The snapshot `saveToDisk` serializes. -/
def snapshotOf (s : VectorStore) : VectorStoreData :=
  ⟨VECTOR_STORE_VERSION, s.storedModelName, s.storedChunkSize,
    s.storedChunkOverlap, s.chunks.map (fun p => p.2)⟩

/-- `saveToDisk` (success path): a no-op when not dirty; otherwise the
snapshot is written and the dirty flag cleared.  The first component is the
written data, `none` when nothing was written. -/
def VectorStore.saveToDisk (s : VectorStore) : Option VectorStoreData × VectorStore :=
  if s.dirty then (some (snapshotOf s), { s with dirty := false }) else (none, s)

/-- `loadFromDisk` applied to successfully parsed snapshot data: a version
mismatch leaves the store untouched (start fresh); otherwise the config is
adopted (`data.modelName || ""` is the identity on the modelled strings), the
maps are rebuilt chunk by chunk, and dirty is reset. -/
def loadData (s : VectorStore) (data : VectorStoreData) : VectorStore :=
  if data.version ≠ VECTOR_STORE_VERSION then s
  else
    let maps := data.chunks.foldl
      (fun (p : List (String × StoredChunk) × List (String × List String)) c =>
        (mapSet p.1 c.id c,
         mapSet p.2 c.metadata.uuid
           (((lookupList p.2 c.metadata.uuid).getD []) ++ [c.id])))
      ([], [])
    { chunks := maps.1, uuidIndex := maps.2, dirty := false,
      storedModelName := data.modelName, storedChunkSize := data.chunkSize,
      storedChunkOverlap := data.chunkOverlap }

/-! ### Search (vectorStore.ts, `search`) -/

/-- A scored search candidate. -/
structure SearchResult where
  chunk : StoredChunk
  similarity : ℝ

/-- Ascending comparison used by the in-loop `heap.sort((a, b) => a.similarity - b.similarity)`. -/
def simLE (a b : SearchResult) : Prop := a.similarity ≤ b.similarity

/-- Descending comparison used by the final `heap.sort((a, b) => b.similarity - a.similarity)`. -/
def simGE (a b : SearchResult) : Prop := b.similarity ≤ a.similarity

noncomputable instance : DecidableRel simLE :=
  fun a b => inferInstanceAs (Decidable (a.similarity ≤ b.similarity))

noncomputable instance : DecidableRel simGE :=
  fun a b => inferInstanceAs (Decidable (b.similarity ≤ a.similarity))

/-- JS `String.prototype.trim`. -/
def strTrim (s : String) : String := String.mk (trimChars s.data)

/-- JS `String.prototype.substring(0, n)`. -/
def strTake (s : String) (n : Nat) : String := String.mk (s.data.take n)

/-- JS `Array.prototype.join(sep)` over strings. -/
def strJoin (sep : String) (parts : List String) : String :=
  String.mk (joinSep sep.data (parts.map String.data))

/-- JS `String.prototype.split(sep)` for a non-empty separator. -/
def strSplit (sep s : String) : List String :=
  (splitOnSep sep.data s.data).map String.mk

/-- `(chunk.metadata.tags || "").split(",").map(trim).filter(Boolean)`. -/
def splitTags (s : String) : List String :=
  ((strSplit "," s).map strTrim).filter (fun t => !(t == ""))

/-- The exclusion filter of `search`. -/
def skipByUuid (excl : Option (List String)) (c : StoredChunk) : Prop :=
  match excl with
  | some l => c.metadata.uuid ∈ l
  | none => False

/-- The tag filter of `search`: skip when a non-empty filter set shares no tag
with the chunk. -/
def skipByTags (ftags : Option (List String)) (c : StoredChunk) : Prop :=
  match ftags with
  | some l => l ≠ [] ∧ ¬ ∃ t ∈ splitTags c.metadata.tags, t ∈ l
  | none => False

instance (excl : Option (List String)) (c : StoredChunk) :
    Decidable (skipByUuid excl c) := by
  unfold skipByUuid
  match excl with
  | some l => exact inferInstanceAs (Decidable (c.metadata.uuid ∈ l))
  | none => exact inferInstanceAs (Decidable False)

instance (ftags : Option (List String)) (c : StoredChunk) :
    Decidable (skipByTags ftags c) := by
  unfold skipByTags
  match ftags with
  | some l => exact inferInstanceAs (Decidable (_ ∧ _))
  | none => exact inferInstanceAs (Decidable False)

/-- A chunk that survives both skip filters. -/
def eligibleChunk (excl ftags : Option (List String)) (c : StoredChunk) : Prop :=
  ¬ skipByUuid excl c ∧ ¬ skipByTags ftags c

instance (excl ftags : Option (List String)) (c : StoredChunk) :
    Decidable (eligibleChunk excl ftags c) :=
  inferInstanceAs (Decidable (_ ∧ _))

/-- The eligible chunks of a store, in iteration order. -/
def eligibleChunks (s : VectorStore) (excl ftags : Option (List String)) :
    List StoredChunk :=
  (s.chunks.map (fun p => p.2)).filter (fun c => decide (eligibleChunk excl ftags c))

/-- The loop body of `search` for one chunk: skip filters, then the bounded
candidate buffer.  Reading `heap[0].similarity` on an empty buffer is the
JS `TypeError`, modelled as `none`. -/
noncomputable def searchStep (q : List ℝ) (topK : Int)
    (excl ftags : Option (List String)) (heap : List SearchResult)
    (c : StoredChunk) : Option (List SearchResult) :=
  if skipByUuid excl c then some heap
  else if skipByTags ftags c then some heap
  else
    let sim := cosineSimilarity q c.embedding
    if (heap.length : Int) < topK then
      let heap1 := heap ++ [⟨c, sim⟩]
      some (if (heap1.length : Int) = topK then List.insertionSort simLE heap1 else heap1)
    else
      match heap with
      | [] => none
      | h0 :: rest =>
        if h0.similarity < sim then some (List.insertionSort simLE (⟨c, sim⟩ :: rest))
        else some (h0 :: rest)

/-- The `for` loop of `search`; a thrown `TypeError` aborts the whole call. -/
noncomputable def searchLoop (q : List ℝ) (topK : Int)
    (excl ftags : Option (List String)) :
    List StoredChunk → List SearchResult → Option (List SearchResult)
  | [], heap => some heap
  | c :: cks, heap =>
    match searchStep q topK excl ftags heap c with
    | none => none
    | some heap1 => searchLoop q topK excl ftags cks heap1

/-- `VectorStore.search`. -/
noncomputable def VectorStore.search (s : VectorStore) (q : List ℝ) (topK : Int)
    (excl ftags : Option (List String)) : Option (List SearchResult) :=
  match searchLoop q topK excl ftags (s.chunks.map (fun p => p.2)) [] with
  | none => none
  | some heap => some (List.insertionSort simGE heap)

/-! ### EmbedPipeline (embedPipeline.ts) -/

/-- `chunkAndEmbed`, with the batch of embeddings returned by the backend
passed in positionally.  The source's metadata object literal omits the
`tags` field required by `ChunkMetadata`; reading the absent property behaves
as the empty string under the `|| ""` guards downstream, so the model stores
`""`. -/
def chunkAndEmbed (st : EmbedSettings) (note : ParsedNote)
    (embeddings : List (List ℝ)) : List StoredChunk :=
  let fullText :=
    if note.description ≠ "" then note.description ++ "\n\n" ++ note.content
    else note.content
  if (strTrim fullText).data.length < st.minChunkLength then []
  else
    let texts := splitText st.chunkSize st.chunkOverlap CHUNK_SEPARATORS fullText.data
    let validTexts := texts.filter (fun t => decide (st.minChunkLength ≤ t.length))
    if validTexts.isEmpty then []
    else
      validTexts.enum.map (fun p =>
        { id := note.uuid ++ "_chunk_" ++ toString p.1,
          embedding := embeddings.getD p.1 [],
          text := String.mk p.2,
          metadata :=
            { uuid := note.uuid, modified := note.modified, title := note.title,
              description :=
                if note.description ≠ "" then strTake note.description 500 else "",
              aliases := strJoin ", " note.aliases,
              tags := "",
              outgoingLinks := strJoin ", " note.outgoingLinks,
              chunkIndex := p.1, totalChunks := validTexts.length,
              filePath := note.filePath } })

/-- Outcome of processing one vault file, as observed by the `embedVault`
loop: the parser returned `null`, or a parsed note whose chunk/embed sub-flow
either threw (`none`) or produced a chunk list. -/
inductive FileOutcome where
  | parseNull : FileOutcome
  | parsed (uuid modified : String) (subflow : Option (List StoredChunk)) : FileOutcome

/-- The body of the per-file `for` loop of `embedVault` (including its
`try`/`catch`): `es` is the embedded-state snapshot taken before the loop, the
accumulator carries the store, the stats and the seen-uuid list. -/
def embedVaultFileStep (es : List (String × String))
    (acc : VectorStore × EmbedStats × List String) (f : FileOutcome) :
    VectorStore × EmbedStats × List String :=
  match f with
  | .parseNull => (acc.1, { acc.2.1 with skipped := acc.2.1.skipped + 1 }, acc.2.2)
  | .parsed uuid modified subflow =>
    let seen := acc.2.2 ++ [uuid]
    match lookupList es uuid with
    | some m =>
      if m = modified then
        (acc.1, { acc.2.1 with unchanged := acc.2.1.unchanged + 1 }, seen)
      else
        let s1 := acc.1.deleteByUuid uuid
        let st1 := { acc.2.1 with updated := acc.2.1.updated + 1 }
        match subflow with
        | none => (s1, { st1 with errors := st1.errors + 1 }, seen)
        | some [] => (s1, { st1 with skipped := st1.skipped + 1 }, seen)
        | some cks => (s1.upsertChunks cks, st1, seen)
    | none =>
      let st1 := { acc.2.1 with new := acc.2.1.new + 1 }
      match subflow with
      | none => (acc.1, { st1 with errors := st1.errors + 1 }, seen)
      | some [] => (acc.1, { st1 with skipped := st1.skipped + 1 }, seen)
      | some cks => (acc.1.upsertChunks cks, st1, seen)

def statsZero : EmbedStats := ⟨0, 0, 0, 0, 0, 0⟩

/-- `embedVault` after its config phase: snapshot the embedded state, process
every file, then delete the notes that were embedded but not seen. -/
def embedVaultRun (s : VectorStore) (files : List FileOutcome) :
    VectorStore × EmbedStats :=
  let es := s.getEmbeddedState
  let r := files.foldl (embedVaultFileStep es) (s, statsZero, [])
  let deletedUuids := (es.map (fun p => p.1)).filter (fun u => !r.2.2.contains u)
  let s2 := deletedUuids.foldl (fun t u => t.deleteByUuid u) r.1
  (s2, { r.2.1 with deleted := r.2.1.deleted + deletedUuids.length })

/-! ### Concrete fixtures used by witnesses and counterexamples -/

def testSettings : EmbedSettings := ⟨"m", 50, 10, 3⟩

def tagNote : ParsedNote := ⟨"u", "m1", "t", "", [], ["alpha"], "hello world", "f", []⟩

noncomputable def tagChunks : List StoredChunk := chunkAndEmbed testSettings tagNote [[1]]

noncomputable def cexChunk : StoredChunk :=
  ⟨"u_chunk_0", [1], "old text", ⟨"u", "m1", "t", "", "", "", "", 0, 1, "f"⟩⟩

noncomputable def cexStore : VectorStore :=
  ⟨[("u_chunk_0", cexChunk)], [("u", ["u_chunk_0"])], false, "m", 50, 10⟩

noncomputable def dirtyCexStore : VectorStore :=
  ⟨[("u_chunk_0", cexChunk)], [("u", ["u_chunk_0"])], true, "m", 50, 10⟩

/-! ### Association-list map lemmas -/

theorem lookupList_mapSet_self {β : Type} (m : List (String × β)) (k : String) (v : β) :
    lookupList (mapSet m k v) k = some v := by
  induction m with
  | nil => simp [mapSet, lookupList]
  | cons p rest ih =>
    by_cases hpk : p.1 = k
    · simp [mapSet, lookupList, hpk]
    · have hne : (p.1 == k) = false := beq_eq_false_iff_ne.mpr hpk
      by_cases hra : rest.any (fun q => q.1 == k)
      · have h1 : mapSet (p :: rest) k v =
            p :: rest.map (fun q => if q.1 = k then (k, v) else q) := by
          simp [mapSet, hne, hra, hpk]
        have h2 : mapSet rest k v = rest.map (fun q => if q.1 = k then (k, v) else q) := by
          simp [mapSet, hra]
        rw [h1]
        rw [h2] at ih
        simpa [lookupList, hne] using ih
      · have h1 : mapSet (p :: rest) k v = p :: (rest ++ [(k, v)]) := by
          simp [mapSet, hne, hra]
        have h2 : mapSet rest k v = rest ++ [(k, v)] := by
          simp [mapSet, hra]
        rw [h1]
        rw [h2] at ih
        simpa [lookupList, hne] using ih

theorem lookupList_map_overwrite {β : Type} (m : List (String × β)) (k k' : String) (v : β)
    (h : k' ≠ k) :
    lookupList (m.map (fun q => if q.1 = k then (k, v) else q)) k' = lookupList m k' := by
  induction m with
  | nil => simp [lookupList]
  | cons p rest ih =>
    by_cases hpk : p.1 = k
    · have hk' : (k == k') = false := beq_eq_false_iff_ne.mpr (Ne.symm h)
      have hp' : (p.1 == k') = false := by rw [hpk]; exact hk'
      simp only [List.map_cons, if_pos hpk]
      simp only [lookupList, List.find?] at ih ⊢
      rw [hk', hp']
      exact ih
    · simp only [List.map_cons, if_neg hpk]
      by_cases hpk' : p.1 = k'
      · simp [lookupList, List.find?, hpk']
      · have hp' : (p.1 == k') = false := beq_eq_false_iff_ne.mpr hpk'
        simp only [lookupList, List.find?] at ih ⊢
        rw [hp']
        exact ih

theorem lookupList_append_single {β : Type} (m : List (String × β)) (k k' : String) (v : β)
    (h : k' ≠ k) :
    lookupList (m ++ [(k, v)]) k' = lookupList m k' := by
  have hk' : (k == k') = false := beq_eq_false_iff_ne.mpr (Ne.symm h)
  induction m with
  | nil => simp [lookupList, List.find?, hk']
  | cons p rest ih =>
    by_cases hpk' : p.1 = k'
    · simp [lookupList, List.find?, hpk']
    · have hp' : (p.1 == k') = false := beq_eq_false_iff_ne.mpr hpk'
      simp only [List.cons_append, lookupList, List.find?] at ih ⊢
      rw [hp']
      exact ih

theorem lookupList_mapSet_other {β : Type} (m : List (String × β)) (k k' : String) (v : β)
    (h : k' ≠ k) : lookupList (mapSet m k v) k' = lookupList m k' := by
  by_cases hra : m.any (fun q => q.1 == k)
  · have h1 : mapSet m k v = m.map (fun q => if q.1 = k then (k, v) else q) := by
      simp [mapSet, hra]
    rw [h1, lookupList_map_overwrite m k k' v h]
  · have h1 : mapSet m k v = m ++ [(k, v)] := by
      simp [mapSet, hra]
    rw [h1, lookupList_append_single m k k' v h]

theorem lookupList_mapDelete_self {β : Type} (m : List (String × β)) (k : String) :
    lookupList (mapDelete m k) k = none := by
  induction m with
  | nil => simp [mapDelete, lookupList]
  | cons p rest ih =>
    by_cases hpk : p.1 = k
    · simp only [mapDelete, List.filter, beq_iff_eq.mpr hpk, Bool.not_true]
      simpa [mapDelete] using ih
    · have hp' : (p.1 == k) = false := beq_eq_false_iff_ne.mpr hpk
      simp only [mapDelete, List.filter] at ih ⊢
      rw [hp']
      simp only [Bool.not_false]
      simp only [lookupList, List.find?] at ih ⊢
      rw [hp']
      exact ih

theorem lookupList_mapDelete_other {β : Type} (m : List (String × β)) (k k' : String)
    (h : k' ≠ k) : lookupList (mapDelete m k) k' = lookupList m k' := by
  induction m with
  | nil => simp [mapDelete]
  | cons p rest ih =>
    by_cases hpk : p.1 = k
    · have hp' : (p.1 == k) = true := beq_iff_eq.mpr hpk
      have hpk' : (p.1 == k') = false := by
        rw [hpk]; exact beq_eq_false_iff_ne.mpr (Ne.symm h)
      simp only [mapDelete, List.filter] at ih ⊢
      rw [hp']
      simp only [Bool.not_true]
      simp only [lookupList, List.find?]
      rw [hpk']
      exact ih
    · have hp' : (p.1 == k) = false := beq_eq_false_iff_ne.mpr hpk
      simp only [mapDelete, List.filter] at ih ⊢
      rw [hp']
      simp only [Bool.not_false]
      by_cases hpk' : p.1 = k'
      · simp [lookupList, List.find?, hpk']
      · have hq : (p.1 == k') = false := beq_eq_false_iff_ne.mpr hpk'
        simp only [lookupList, List.find?] at ih ⊢
        rw [hq]
        exact ih

/-! ### VectorStore operation lemmas -/

theorem getByUuid_deleteByUuid_self (s : VectorStore) (uuid : String) :
    (s.deleteByUuid uuid).getByUuid uuid = [] := by
  unfold VectorStore.deleteByUuid
  match h : lookupList s.uuidIndex uuid with
  | none => simp [VectorStore.getByUuid, h]
  | some ids => simp [VectorStore.getByUuid, lookupList_mapDelete_self]

theorem lookupList_foldl_mapSet_notmem {β : Type} (key : β → String)
    (l : List β) (m0 : List (String × β)) (k : String)
    (h : ∀ c ∈ l, key c ≠ k) :
    lookupList (l.foldl (fun m c => mapSet m (key c) c) m0) k = lookupList m0 k := by
  induction l generalizing m0 with
  | nil => rfl
  | cons c rest ih =>
    simp only [List.foldl_cons]
    rw [ih (mapSet m0 (key c) c) (fun d hd => h d (List.mem_cons_of_mem c hd))]
    exact lookupList_mapSet_other m0 (key c) k c
      (fun he => h c (List.mem_cons_self c rest) he.symm)

theorem lookupList_foldl_mapSet_mem {β : Type} (key : β → String)
    (l : List β) (m0 : List (String × β)) (c : β)
    (hnd : (l.map key).Nodup) (hc : c ∈ l) :
    lookupList (l.foldl (fun m d => mapSet m (key d) d) m0) (key c) = some c := by
  induction l generalizing m0 with
  | nil => cases hc
  | cons d rest ih =>
    simp only [List.map_cons, List.nodup_cons] at hnd
    rcases List.mem_cons.mp hc with rfl | hcr
    · simp only [List.foldl_cons]
      rw [lookupList_foldl_mapSet_notmem key rest (mapSet m0 (key c) c) (key c)
        (fun e he hke => hnd.1 (hke ▸ List.mem_map_of_mem key he))]
      exact lookupList_mapSet_self m0 (key c) c
    · simp only [List.foldl_cons]
      exact ih _ hnd.2 hcr

theorem filterMap_lookup_of_all {β : Type} (f : String → Option β) (l : List β)
    (key : β → String) (h : ∀ c ∈ l, f (key c) = some c) :
    (l.map key).filterMap f = l := by
  induction l with
  | nil => rfl
  | cons c rest ih =>
    simp only [List.map_cons, List.filterMap_cons, h c (List.mem_cons_self c rest)]
    rw [ih (fun d hd => h d (List.mem_cons_of_mem c hd))]

theorem getByUuid_upsertChunks (s : VectorStore) (cks : List StoredChunk)
    (c0 : StoredChunk) (rest : List StoredChunk) (hcks : cks = c0 :: rest)
    (hnd : (cks.map (fun c => c.id)).Nodup) :
    (s.upsertChunks cks).getByUuid c0.metadata.uuid = cks := by
  subst hcks
  unfold VectorStore.upsertChunks VectorStore.getByUuid
  simp only
  rw [lookupList_mapSet_self]
  apply filterMap_lookup_of_all
  intro c hc
  exact lookupList_foldl_mapSet_mem (fun c => c.id) (c0 :: rest) _ c hnd hc

/-! ### Persistence lemmas -/

theorem foldl_pair_fst {α β γ : Type} (f : α → γ → α) (g : α × β → γ → β)
    (l : List γ) (a : α) (b : β) :
    (l.foldl (fun p c => (f p.1 c, g p c)) (a, b)).1 = l.foldl f a := by
  induction l generalizing a b with
  | nil => rfl
  | cons c rest ih => simpa only [List.foldl_cons] using ih (f a c) (g (a, b) c)

theorem foldl_mapSet_fresh {β : Type} (key : β → String) (l : List β)
    (acc : List (String × β))
    (hdisj : ∀ c ∈ l, ∀ p ∈ acc, p.1 ≠ key c) (hnd : (l.map key).Nodup) :
    l.foldl (fun m c => mapSet m (key c) c) acc = acc ++ l.map (fun c => (key c, c)) := by
  induction l generalizing acc with
  | nil => simp
  | cons c rest ih =>
    simp only [List.map_cons, List.nodup_cons] at hnd
    have hany : acc.any (fun p => p.1 == key c) = false := by
      rw [List.any_eq_false]
      intro p hp
      exact fun hb => hdisj c (List.mem_cons_self c rest) p hp (by simpa using hb)
    have hfresh : mapSet acc (key c) c = acc ++ [(key c, c)] := by
      simp [mapSet, hany]
    have hrec := ih (acc ++ [(key c, c)]) ?hd hnd.2
    case hd =>
      intro d hd p hp
      rcases List.mem_append.mp hp with h | h
      · exact hdisj d (List.mem_cons_of_mem c hd) p h
      · rcases List.mem_singleton.mp h with rfl
        intro he
        have he2 : key c = key d := he
        exact hnd.1 (by rw [he2]; exact List.mem_map_of_mem key hd)
    simp only [List.foldl_cons, hfresh, List.map_cons, hrec, List.append_assoc,
      List.singleton_append]

theorem loadData_snapshot_chunks (s : VectorStore)
    (hnd : (s.chunks.map (fun p => p.1)).Nodup)
    (hkm : ∀ p ∈ s.chunks, p.1 = p.2.id) :
    (loadData emptyStore (snapshotOf s)).chunks = s.chunks := by
  have hids : (s.chunks.map (fun p => p.2)).map (fun c => c.id) = s.chunks.map (fun p => p.1) := by
    rw [List.map_map]
    exact List.map_congr_left (fun p hp => (hkm p hp).symm)
  unfold loadData snapshotOf
  rw [if_neg (by simp [VECTOR_STORE_VERSION])]
  simp only
  rw [foldl_pair_fst (fun m (c : StoredChunk) => mapSet m c.id c)
    (fun p c => mapSet p.2 c.metadata.uuid ((lookupList p.2 c.metadata.uuid).getD [] ++ [c.id]))
    (s.chunks.map (fun p => p.2)) [] []]
  rw [foldl_mapSet_fresh (fun c => c.id) (s.chunks.map (fun p => p.2)) []
    (by intro c hc p hp; cases hp) (by rw [hids]; exact hnd)]
  rw [List.nil_append, List.map_map]
  have hpw : ∀ p ∈ s.chunks, ((fun c => (c.id, c)) ∘ fun p => p.2) p = id p := by
    intro p hp
    have h1 : p.1 = p.2.id := hkm p hp
    show (p.2.id, p.2) = p
    rw [← h1]
  rw [List.map_congr_left hpw, List.map_id]

/-! ### Claims C9, C2, C7, C8, C1, C3 -/

/-- C9: for equal-length vectors the similarity used for ranking equals
`dot(a,b) / (normV a * normV b)`, and it is exactly `0` whenever either vector
has zero norm (the `denom === 0` guard; no NaN/division-by-zero value exists
in the real-number model). -/
theorem cosineSimilaritySpec (a b : List ℝ) (h : a.length = b.length) :
    cosineSimilarity a b = dotList a b / (normV a * normV b) ∧
    ((normV a = 0 ∨ normV b = 0) → cosineSimilarity a b = 0) := by
  have hbt : b.take a.length = b := by rw [h]; exact List.take_length b
  have hA : (0:ℝ) ≤ (a.map (fun x => x * x)).sum := by
    apply List.sum_nonneg
    intro x hx
    obtain ⟨y, -, rfl⟩ := List.mem_map.mp hx
    exact mul_self_nonneg y
  have hB : (0:ℝ) ≤ (b.map (fun x => x * x)).sum := by
    apply List.sum_nonneg
    intro x hx
    obtain ⟨y, -, rfl⟩ := List.mem_map.mp hx
    exact mul_self_nonneg y
  unfold cosineSimilarity dotList normV
  simp only [hbt]
  have hsqrt : Real.sqrt ((a.map (fun x => x * x)).sum * (b.map (fun x => x * x)).sum)
      = Real.sqrt (a.map (fun x => x * x)).sum * Real.sqrt (b.map (fun x => x * x)).sum :=
    Real.sqrt_mul hA _
  constructor
  · by_cases hd : Real.sqrt ((a.map (fun x => x * x)).sum * (b.map (fun x => x * x)).sum) = 0
    · rw [if_pos hd, ← hsqrt, hd, div_zero]
    · rw [if_neg hd, hsqrt]
  · intro h0
    have hz : Real.sqrt ((a.map (fun x => x * x)).sum * (b.map (fun x => x * x)).sum) = 0 := by
      rcases h0 with h0 | h0
      · have h1 : (a.map (fun x => x * x)).sum = 0 := (Real.sqrt_eq_zero hA).mp h0
        rw [h1, zero_mul, Real.sqrt_zero]
      · have h1 : (b.map (fun x => x * x)).sum = 0 := (Real.sqrt_eq_zero hB).mp h0
        rw [h1, mul_zero, Real.sqrt_zero]
    rw [if_pos hz]

theorem cosineSimilaritySpecWitness :
    ([(1:ℝ), 0].length = [(0:ℝ), 1].length) ∧
    (cosineSimilarity [(1:ℝ), 0] [(0:ℝ), 1] =
      dotList [(1:ℝ), 0] [(0:ℝ), 1] / (normV [(1:ℝ), 0] * normV [(0:ℝ), 1]) ∧
    ((normV [(1:ℝ), 0] = 0 ∨ normV [(0:ℝ), 1] = 0) →
      cosineSimilarity [(1:ℝ), 0] [(0:ℝ), 1] = 0)) :=
  ⟨rfl, cosineSimilaritySpec [(1:ℝ), 0] [(0:ℝ), 1] rfl⟩

/-- C2: the claim is refuted by the code.  `chunkAndEmbed` builds the chunk
metadata without the `tags` field that the `ChunkMetadata` interface requires,
so every produced chunk reads its tags as the empty string, and a search whose
required-tag set is non-empty skips all pipeline-produced chunks: for a note
tagged `alpha`, searching with required tag `alpha` returns no results. -/
theorem tagsMissingFromChunkMetadata :
    tagNote.tags = ["alpha"] ∧
    tagChunks.length = 1 ∧
    tagChunks.map (fun c => c.metadata.tags) = [""] ∧
    VectorStore.search (emptyStore.upsertChunks tagChunks) [1] 5 none (some ["alpha"])
      = some [] :=
  ⟨rfl, rfl, rfl, rfl⟩

/-- C7: the persisted snapshot reloaded into a fresh store restores the chunk
set (here even the exact insertion-ordered map) and the stored config.  The
hypotheses are the JS `Map` invariants of a reachable store: keys are unique
and every chunk is stored under its own id. -/
theorem persistLoadRoundTrip (s : VectorStore) (hd : s.dirty = true)
    (hnd : (s.chunks.map (fun p => p.1)).Nodup)
    (hkm : ∀ p ∈ s.chunks, p.1 = p.2.id) :
    (s.saveToDisk).1 = some (snapshotOf s) ∧
    (loadData emptyStore (snapshotOf s)).chunks = s.chunks ∧
    (loadData emptyStore (snapshotOf s)).storedModelName = s.storedModelName ∧
    (loadData emptyStore (snapshotOf s)).storedChunkSize = s.storedChunkSize ∧
    (loadData emptyStore (snapshotOf s)).storedChunkOverlap = s.storedChunkOverlap := by
  refine ⟨by simp [VectorStore.saveToDisk, hd], loadData_snapshot_chunks s hnd hkm, ?_, ?_, ?_⟩
  all_goals
    unfold loadData snapshotOf
    rw [if_neg (by simp [VECTOR_STORE_VERSION])]

theorem persistLoadRoundTripWitness :
    (dirtyCexStore.dirty = true ∧
      (dirtyCexStore.chunks.map (fun p => p.1)).Nodup ∧
      ∀ p ∈ dirtyCexStore.chunks, p.1 = p.2.id) ∧
    ((dirtyCexStore.saveToDisk).1 = some (snapshotOf dirtyCexStore) ∧
      (loadData emptyStore (snapshotOf dirtyCexStore)).chunks = dirtyCexStore.chunks ∧
      (loadData emptyStore (snapshotOf dirtyCexStore)).storedModelName
        = dirtyCexStore.storedModelName ∧
      (loadData emptyStore (snapshotOf dirtyCexStore)).storedChunkSize
        = dirtyCexStore.storedChunkSize ∧
      (loadData emptyStore (snapshotOf dirtyCexStore)).storedChunkOverlap
        = dirtyCexStore.storedChunkOverlap) :=
  ⟨⟨rfl, by decide, by decide⟩,
    persistLoadRoundTrip dirtyCexStore rfl (by decide) (by decide)⟩

/-- C8 counterexample: `setConfig` changes the stored configuration (part of
the in-memory state) without setting the dirty flag, refuting "every mutation
... (config change) ... sets it". -/
theorem setConfigDoesNotSetDirty :
    (emptyStore.setConfig "model-x" 800 100).dirty = false ∧
    (emptyStore.setConfig "model-x" 800 100).storedModelName ≠ emptyStore.storedModelName :=
  ⟨rfl, by decide⟩

/-- C8 amended: upserting a non-empty chunk list, deleting a known uuid,
clearing, and a file-path update that matches at least one chunk all set the
dirty flag; `setConfig` leaves it unchanged even though it mutates the stored
config; a (successful) save always leaves the flag cleared, and a successful
load of current-version data also resets it. -/
theorem dirtyFlagBehavior (s : VectorStore) (cks : List StoredChunk) (hcks : cks ≠ [])
    (u : String) (hu : lookupList s.uuidIndex u ≠ none) (modelName : String) (a b : Nat)
    (oldP newP : String)
    (hhit : s.chunks.any (fun p => p.2.metadata.filePath == oldP) = true)
    (d : VectorStoreData) (hv : d.version = VECTOR_STORE_VERSION) :
    (s.upsertChunks cks).dirty = true ∧
    (s.deleteByUuid u).dirty = true ∧
    s.clear.dirty = true ∧
    (s.updateFilePath oldP newP).dirty = true ∧
    (s.setConfig modelName a b).dirty = s.dirty ∧
    (s.saveToDisk).2.dirty = false ∧
    (loadData s d).dirty = false := by
  refine ⟨?_, ?_, rfl, ?_, rfl, ?_, ?_⟩
  · match cks with
    | [] => exact absurd rfl hcks
    | c0 :: rest => rfl
  · unfold VectorStore.deleteByUuid
    match h : lookupList s.uuidIndex u with
    | none => exact absurd h hu
    | some ids => rfl
  · unfold VectorStore.updateFilePath
    simp [hhit]
  · unfold VectorStore.saveToDisk
    match h : s.dirty with
    | false => simp [h]
    | true => simp
  · unfold loadData
    rw [if_neg (by rw [hv]; exact fun hne => hne rfl)]

theorem dirtyFlagBehaviorWitness :
    ((dirtyCexStore.upsertChunks [cexChunk]).dirty = true ∧
      (dirtyCexStore.deleteByUuid "u").dirty = true ∧
      dirtyCexStore.clear.dirty = true ∧
      (dirtyCexStore.updateFilePath "f" "g").dirty = true ∧
      (dirtyCexStore.setConfig "m2" 1 2).dirty = dirtyCexStore.dirty ∧
      (dirtyCexStore.saveToDisk).2.dirty = false ∧
      (loadData dirtyCexStore (snapshotOf dirtyCexStore)).dirty = false) :=
  dirtyFlagBehavior dirtyCexStore [cexChunk] (by simp) "u" (by decide) "m2" 1 2
    "f" "g" (by decide) (snapshotOf dirtyCexStore) rfl

/-- C1 counterexample: a previously indexed note ("u", token "m1") is detected
as changed (incoming token "m2"); its chunk/embed sub-flow throws (`none`).
The loop body deleted the prior chunks before running the sub-flow, so after
the failure the note's prior chunks are no longer visible to reads, refuting
"the note's prior chunks remain visible unchanged". -/
theorem subflowFailureDeletesPriorChunks :
    cexStore.getByUuid "u" = [cexChunk] ∧
    cexChunk.metadata.modified ≠ "m2" ∧
    (embedVaultFileStep cexStore.getEmbeddedState (cexStore, statsZero, [])
      (.parsed "u" "m2" none)).1.getByUuid "u" = [] :=
  ⟨rfl, by decide, rfl⟩

/-- C1 amended: for a previously indexed note detected as changed, the loop
body first deletes the prior chunks and only then runs the chunk/embed
sub-flow; hence after a failing (or empty) sub-flow the note has no visible
chunks at all, and after a successful sub-flow exactly the new chunks are
visible — never a partial mixture of old and new. -/
theorem noteReplaceAllOrNothing (s : VectorStore) (st : EmbedStats) (seen : List String)
    (uuid modified : String) (subflow : Option (List StoredChunk)) (m : String)
    (hm : lookupList s.getEmbeddedState uuid = some m) (hne : m ≠ modified) :
    (subflow = none →
      (embedVaultFileStep s.getEmbeddedState (s, st, seen)
        (.parsed uuid modified subflow)).1.getByUuid uuid = []) ∧
    (subflow = some [] →
      (embedVaultFileStep s.getEmbeddedState (s, st, seen)
        (.parsed uuid modified subflow)).1.getByUuid uuid = []) ∧
    (∀ c0 rest, subflow = some (c0 :: rest) →
      c0.metadata.uuid = uuid →
      (((c0 :: rest).map (fun c => c.id)).Nodup) →
      (embedVaultFileStep s.getEmbeddedState (s, st, seen)
        (.parsed uuid modified subflow)).1.getByUuid uuid = c0 :: rest) := by
  refine ⟨?_, ?_, ?_⟩
  · rintro rfl
    simp only [embedVaultFileStep, hm, if_neg hne]
    exact getByUuid_deleteByUuid_self s uuid
  · rintro rfl
    simp only [embedVaultFileStep, hm, if_neg hne]
    exact getByUuid_deleteByUuid_self s uuid
  · rintro c0 rest rfl hcu hnd
    subst hcu
    simp only [embedVaultFileStep, hm, if_neg hne]
    exact getByUuid_upsertChunks (s.deleteByUuid c0.metadata.uuid) (c0 :: rest) c0 rest rfl hnd

noncomputable def newChunk : StoredChunk :=
  ⟨"u_chunk_0", [2], "new text", ⟨"u", "m2", "t", "", "", "", "", 0, 1, "f"⟩⟩

theorem noteReplaceAllOrNothingWitness :
    (lookupList cexStore.getEmbeddedState "u" = some "m1" ∧ "m1" ≠ "m2") ∧
    ((none = (none : Option (List StoredChunk)) →
      (embedVaultFileStep cexStore.getEmbeddedState (cexStore, statsZero, [])
        (.parsed "u" "m2" none)).1.getByUuid "u" = []) ∧
    (∀ c0 rest, some [newChunk] = some (c0 :: rest) →
      c0.metadata.uuid = "u" →
      (((c0 :: rest).map (fun c => c.id)).Nodup) →
      (embedVaultFileStep cexStore.getEmbeddedState (cexStore, statsZero, [])
        (.parsed "u" "m2" (some [newChunk]))).1.getByUuid "u" = c0 :: rest)) :=
  ⟨⟨rfl, by decide⟩,
    (noteReplaceAllOrNothing cexStore statsZero [] "u" "m2" none "m1" rfl (by decide)).1,
    (noteReplaceAllOrNothing cexStore statsZero [] "u" "m2" (some [newChunk]) "m1" rfl
      (by decide)).2.2⟩

/-- C3 counterexample: a new note whose sub-flow yields zero usable chunks is
counted under `new` AND under `skipped` in the returned stats of a reindex
run — not under `skipped` instead of `new`. -/
theorem zeroChunksCountedBothNewAndSkipped :
    (embedVaultRun emptyStore [.parsed "u" "m" (some [])]).2
      = ⟨1, 0, 0, 1, 0, 0⟩ := rfl

/-- C3 amended: when the sub-flow yields zero usable chunks for a note that is
not up to date, `skipped` is incremented in addition to the already-recorded
`new`/`updated` intent, and no chunks are upserted: a new note leaves the
store untouched, an updated note keeps only the effect of the prior-chunk
deletion. -/
theorem zeroChunksSkippedCounting (es : List (String × String)) (s : VectorStore)
    (st : EmbedStats) (seen : List String) (uuid modified : String)
    (h : lookupList es uuid ≠ some modified) :
    (embedVaultFileStep es (s, st, seen) (.parsed uuid modified (some []))).2.1.skipped
      = st.skipped + 1 ∧
    (lookupList es uuid = none →
      (embedVaultFileStep es (s, st, seen) (.parsed uuid modified (some []))).2.1.new
          = st.new + 1 ∧
        (embedVaultFileStep es (s, st, seen) (.parsed uuid modified (some []))).1 = s) ∧
    (∀ m, lookupList es uuid = some m →
      (embedVaultFileStep es (s, st, seen) (.parsed uuid modified (some []))).2.1.updated
          = st.updated + 1 ∧
        (embedVaultFileStep es (s, st, seen) (.parsed uuid modified (some []))).1
          = s.deleteByUuid uuid) := by
  match hl : lookupList es uuid with
  | none =>
    refine ⟨?_, fun _ => ⟨?_, ?_⟩, fun m hm => absurd hm (by simp)⟩
    all_goals simp [embedVaultFileStep, hl]
  | some m =>
    have hmne : m ≠ modified := fun he => h (he ▸ hl)
    refine ⟨?_, fun hn => absurd hn (by simp), fun m' hm' => ⟨?_, ?_⟩⟩
    all_goals simp [embedVaultFileStep, hl, hmne]

theorem zeroChunksSkippedCountingWitness :
    (lookupList ([] : List (String × String)) "u" ≠ some "m") ∧
    ((embedVaultFileStep [] (emptyStore, statsZero, []) (.parsed "u" "m" (some []))).2.1.skipped
        = statsZero.skipped + 1 ∧
      (lookupList ([] : List (String × String)) "u" = none →
        (embedVaultFileStep [] (emptyStore, statsZero, [])
            (.parsed "u" "m" (some []))).2.1.new = statsZero.new + 1 ∧
          (embedVaultFileStep [] (emptyStore, statsZero, [])
            (.parsed "u" "m" (some []))).1 = emptyStore) ∧
      (∀ m, lookupList ([] : List (String × String)) "u" = some m →
        (embedVaultFileStep [] (emptyStore, statsZero, [])
            (.parsed "u" "m" (some []))).2.1.updated = statsZero.updated + 1 ∧
          (embedVaultFileStep [] (emptyStore, statsZero, [])
            (.parsed "u" "m" (some []))).1 = emptyStore.deleteByUuid "u")) :=
  ⟨by decide, zeroChunksSkippedCounting [] emptyStore statsZero [] "u" "m" (by decide)⟩

/-! ### Search lemmas -/

instance : IsTotal SearchResult simGE := ⟨fun a b => le_total b.similarity a.similarity⟩

instance : IsTrans SearchResult simGE := ⟨fun _ _ _ h1 h2 => le_trans h2 h1⟩

theorem searchLoop_zeroTopK (q : List ℝ) (topK : Int) (excl ftags : Option (List String))
    (h1 : topK ≤ 0) :
    ∀ ts : List StoredChunk, (∃ c ∈ ts, eligibleChunk excl ftags c) →
      searchLoop q topK excl ftags ts [] = none := by
  intro ts
  induction ts with
  | nil => rintro ⟨c, hc, -⟩; cases hc
  | cons c rest ih =>
    rintro ⟨d, hd, hde⟩
    by_cases hsu : skipByUuid excl c
    · have hstep : searchStep q topK excl ftags [] c = some [] := by
        simp [searchStep, hsu]
      simp only [searchLoop, hstep]
      apply ih
      rcases List.mem_cons.mp hd with rfl | hdr
      · exact absurd hsu hde.1
      · exact ⟨d, hdr, hde⟩
    · by_cases hst : skipByTags ftags c
      · have hstep : searchStep q topK excl ftags [] c = some [] := by
          simp [searchStep, hsu, hst]
        simp only [searchLoop, hstep]
        apply ih
        rcases List.mem_cons.mp hd with rfl | hdr
        · exact absurd hst hde.2
        · exact ⟨d, hdr, hde⟩
      · have hstep : searchStep q topK excl ftags [] c = none := by
          simp [searchStep, hsu, hst, not_lt.mpr h1]
        simp [searchLoop, hstep]

/-- C10: with `topK ≤ 0` (zero or negative) and at least one eligible chunk in
the store, `search` reaches the read of `heap[0]` on the empty candidate
buffer and throws (`none`) instead of returning an empty result list. -/
theorem searchZeroTopKThrows (s : VectorStore) (q : List ℝ) (topK : Int)
    (excl ftags : Option (List String)) (h1 : topK ≤ 0)
    (h2 : eligibleChunks s excl ftags ≠ []) :
    s.search q topK excl ftags = none := by
  have hex : ∃ c ∈ s.chunks.map (fun p => p.2), eligibleChunk excl ftags c := by
    obtain ⟨c, hc⟩ := List.exists_mem_of_ne_nil _ h2
    have := List.mem_filter.mp hc
    exact ⟨c, this.1, of_decide_eq_true this.2⟩
  unfold VectorStore.search
  rw [searchLoop_zeroTopK q topK excl ftags h1 _ hex]

theorem searchZeroTopKThrowsWitness :
    ((0 : Int) ≤ 0 ∧ eligibleChunks cexStore none none ≠ []) ∧
    cexStore.search [1] 0 none none = none :=
  ⟨⟨le_refl 0, ne_of_eq_of_ne (show eligibleChunks cexStore none none = [cexChunk] from rfl)
      (List.cons_ne_nil cexChunk [])⟩,
    searchZeroTopKThrows cexStore [1] 0 none none (le_refl 0)
      (ne_of_eq_of_ne (show eligibleChunks cexStore none none = [cexChunk] from rfl)
        (List.cons_ne_nil cexChunk []))⟩

/-- Heap invariant of the `search` loop: starting from an eligible,
similarity-correct buffer not exceeding `topK`, the loop succeeds and ends
with `min topK (start + eligible-count)` candidates, all eligible and scored
by the cosine similarity to the query. -/
theorem searchLoop_spec (q : List ℝ) (topK : Int) (excl ftags : Option (List String))
    (h1 : 1 ≤ topK) :
    ∀ (ts : List StoredChunk) (h0 : List SearchResult),
      (∀ r ∈ h0, eligibleChunk excl ftags r.chunk ∧
        r.similarity = cosineSimilarity q r.chunk.embedding) →
      (h0.length : Int) ≤ topK →
      ∃ l, searchLoop q topK excl ftags ts h0 = some l ∧
        (l.length : Int) = min topK ((h0.length : Int) +
          ((ts.filter (fun c => decide (eligibleChunk excl ftags c))).length : Int)) ∧
        ∀ r ∈ l, eligibleChunk excl ftags r.chunk ∧
          r.similarity = cosineSimilarity q r.chunk.embedding := by
  intro ts
  induction ts with
  | nil =>
    intro h0 hmem hlen
    refine ⟨h0, rfl, ?_, hmem⟩
    simp only [List.filter_nil, List.length_nil, Int.natCast_zero, add_zero]
    omega
  | cons c rest ih =>
    intro h0 hmem hlen
    by_cases hsu : skipByUuid excl c
    · have helig : ¬ eligibleChunk excl ftags c := fun he => he.1 hsu
      have hstep : searchStep q topK excl ftags h0 c = some h0 := by
        simp [searchStep, hsu]
      obtain ⟨l, hl, hlen2, hmem2⟩ := ih h0 hmem hlen
      refine ⟨l, ?_, ?_, hmem2⟩
      · simp only [searchLoop, hstep]
        exact hl
      · rw [hlen2]
        congr 2
        simp [List.filter_cons, helig]
    · by_cases hst : skipByTags ftags c
      · have helig : ¬ eligibleChunk excl ftags c := fun he => he.2 hst
        have hstep : searchStep q topK excl ftags h0 c = some h0 := by
          simp [searchStep, hsu, hst]
        obtain ⟨l, hl, hlen2, hmem2⟩ := ih h0 hmem hlen
        refine ⟨l, ?_, ?_, hmem2⟩
        · simp only [searchLoop, hstep]
          exact hl
        · rw [hlen2]
          congr 2
          simp [List.filter_cons, helig]
      · have helig : eligibleChunk excl ftags c := ⟨hsu, hst⟩
        have hfilter : (c :: rest).filter (fun d => decide (eligibleChunk excl ftags d)) =
            c :: rest.filter (fun d => decide (eligibleChunk excl ftags d)) := by
          simp [List.filter_cons, helig]
        by_cases hlt : (h0.length : Int) < topK
        · -- push branch
          have hext : ∀ r ∈ h0 ++ [⟨c, cosineSimilarity q c.embedding⟩],
              eligibleChunk excl ftags r.chunk ∧
                r.similarity = cosineSimilarity q r.chunk.embedding := by
            intro r hr
            rcases List.mem_append.mp hr with h | h
            · exact hmem r h
            · rcases List.mem_singleton.mp h with rfl
              exact ⟨helig, rfl⟩
          have key : ∀ hp : List SearchResult,
              hp.length = h0.length + 1 →
              (∀ r ∈ hp, r ∈ h0 ++ [⟨c, cosineSimilarity q c.embedding⟩]) →
              searchStep q topK excl ftags h0 c = some hp →
              ∃ l, searchLoop q topK excl ftags (c :: rest) h0 = some l ∧
                (l.length : Int) = min topK ((h0.length : Int) +
                  (((c :: rest).filter
                    (fun d => decide (eligibleChunk excl ftags d))).length : Int)) ∧
                ∀ r ∈ l, eligibleChunk excl ftags r.chunk ∧
                  r.similarity = cosineSimilarity q r.chunk.embedding := by
            intro hp hplen hpmem hstep
            obtain ⟨l, hl, hlen2, hmem2⟩ := ih hp (fun r hr => hext r (hpmem r hr))
              (by rw [hplen]; push_cast; omega)
            refine ⟨l, ?_, ?_, hmem2⟩
            · simp only [searchLoop, hstep]
              exact hl
            · rw [hlen2, hplen, hfilter]
              simp only [List.length_cons]
              push_cast
              omega
          by_cases hfull : ((h0.length : Int) + 1 = topK)
          · apply key (List.insertionSort simLE (h0 ++ [⟨c, cosineSimilarity q c.embedding⟩]))
            · rw [List.length_insertionSort, List.length_append, List.length_singleton]
            · intro r hr
              exact (List.mem_insertionSort simLE).mp hr
            · simp [searchStep, hsu, hst, hlt, hfull]
          · apply key (h0 ++ [⟨c, cosineSimilarity q c.embedding⟩])
            · rw [List.length_append, List.length_singleton]
            · intro r hr
              exact hr
            · simp [searchStep, hsu, hst, hlt, hfull]
        · -- replace branch: the heap is full
          have hge : topK ≤ (h0.length : Int) := not_lt.mp hlt
          match hh : h0, hmem, hlen, hlt, hge with
          | [], hmem, hlen, hlt, hge =>
            exfalso
            simp only [List.length_nil, Int.natCast_zero] at hge
            omega
          | r0 :: hrest, hmem, hlen, hlt, hge =>
            have hlt2 : ¬ ((hrest.length : Int) + 1 < topK) := by
              simp only [List.length_cons] at hlt
              push_cast at hlt
              exact hlt
            have hge2 : topK ≤ (hrest.length : Int) + 1 := by
              simp only [List.length_cons] at hge
              push_cast at hge
              exact hge
            have hkey : ∀ hp : List SearchResult,
                hp.length = (r0 :: hrest).length →
                (∀ r ∈ hp, r ∈ (⟨c, cosineSimilarity q c.embedding⟩ : SearchResult)
                  :: (r0 :: hrest)) →
                searchStep q topK excl ftags (r0 :: hrest) c = some hp →
                ∃ l, searchLoop q topK excl ftags (c :: rest) (r0 :: hrest) = some l ∧
                  (l.length : Int) = min topK (((r0 :: hrest).length : Int) +
                    (((c :: rest).filter
                      (fun d => decide (eligibleChunk excl ftags d))).length : Int)) ∧
                  ∀ r ∈ l, eligibleChunk excl ftags r.chunk ∧
                    r.similarity = cosineSimilarity q r.chunk.embedding := by
              intro hp hplen hpmem hstep
              have hpm : ∀ r ∈ hp, eligibleChunk excl ftags r.chunk ∧
                  r.similarity = cosineSimilarity q r.chunk.embedding := by
                intro r hr
                rcases List.mem_cons.mp (hpmem r hr) with rfl | h
                · exact ⟨helig, rfl⟩
                · exact hmem r h
              obtain ⟨l, hl, hlen2, hmem2⟩ := ih hp hpm (by rw [hplen]; exact hlen)
              refine ⟨l, ?_, ?_, hmem2⟩
              · simp only [searchLoop, hstep]
                exact hl
              · rw [hlen2, hplen, hfilter]
                simp only [List.length_cons]
                push_cast
                omega
            by_cases hcmp : r0.similarity < cosineSimilarity q c.embedding
            · apply hkey (List.insertionSort simLE
                (⟨c, cosineSimilarity q c.embedding⟩ :: hrest))
              · rw [List.length_insertionSort]
                rfl
              · intro r hr
                rcases List.mem_cons.mp ((List.mem_insertionSort simLE).mp hr) with rfl | h
                · exact List.mem_cons_self _ _
                · exact List.mem_cons_of_mem _ (List.mem_cons_of_mem _ h)
              · simp [searchStep, hsu, hst, hlt2, hcmp]
            · apply hkey (r0 :: hrest)
              · rfl
              · intro r hr
                exact List.mem_cons_of_mem _ hr
              · simp [searchStep, hsu, hst, hlt2, hcmp]

/-- C4: for every store, query embedding, `topK ≥ 1` and filters, `search`
succeeds, never returns a chunk whose note id is in the exclusion set,
returns exactly `min topK (number of eligible chunks)` results, scores them
by cosine similarity to the query, and orders them descending. -/
theorem searchTopKSpec (s : VectorStore) (q : List ℝ) (topK : Int)
    (excl ftags : Option (List String)) (h : 1 ≤ topK) :
    ∃ l, s.search q topK excl ftags = some l ∧
      (l.length : Int) = min topK ((eligibleChunks s excl ftags).length : Int) ∧
      (∀ r ∈ l, ∀ ex, excl = some ex → r.chunk.metadata.uuid ∉ ex) ∧
      (∀ r ∈ l, r.similarity = cosineSimilarity q r.chunk.embedding) ∧
      List.Sorted simGE l := by
  obtain ⟨l0, hl0, hlen, hmem⟩ := searchLoop_spec q topK excl ftags h
    (s.chunks.map (fun p => p.2)) [] (by intro r hr; cases hr)
    (by simp only [List.length_nil, Int.natCast_zero]; omega)
  refine ⟨List.insertionSort simGE l0, ?_, ?_, ?_, ?_, ?_⟩
  · unfold VectorStore.search
    rw [hl0]
  · rw [List.length_insertionSort, hlen]
    unfold eligibleChunks
    simp
  · intro r hr ex hex
    subst hex
    exact fun hin => (hmem r ((List.mem_insertionSort simGE).mp hr)).1.1 hin
  · intro r hr
    exact (hmem r ((List.mem_insertionSort simGE).mp hr)).2
  · exact List.sorted_insertionSort simGE l0

theorem searchTopKSpecWitness :
    ((1:Int) ≤ 1) ∧
    ∃ l, cexStore.search [1] 1 none none = some l ∧
      (l.length : Int) = min 1 ((eligibleChunks cexStore none none).length : Int) ∧
      (∀ r ∈ l, ∀ ex, (none : Option (List String)) = some ex →
        r.chunk.metadata.uuid ∉ ex) ∧
      (∀ r ∈ l, r.similarity = cosineSimilarity [1] r.chunk.embedding) ∧
      List.Sorted simGE l :=
  ⟨le_refl 1, searchTopKSpec cexStore [1] 1 none none (le_refl 1)⟩

/-! ### joinSep and trimChars lemmas -/

theorem joinSep_cons (sep : List Char) (p : List Char) (rest : List (List Char))
    (h : rest ≠ []) : joinSep sep (p :: rest) = p ++ sep ++ joinSep sep rest := by
  match rest with
  | [] => exact absurd rfl h
  | q :: rest2 => rfl

theorem joinSep_append_sep (sep : List Char) (l1 l2 : List (List Char))
    (h1 : l1 ≠ []) (h2 : l2 ≠ []) :
    joinSep sep (l1 ++ l2) = joinSep sep l1 ++ sep ++ joinSep sep l2 := by
  induction l1 with
  | nil => exact absurd rfl h1
  | cons p rest ih =>
    match rest with
    | [] =>
      simp only [List.singleton_append, joinSep]
      rw [joinSep_cons sep p l2 h2]
    | q :: rest2 =>
      have hne : (q :: rest2) ++ l2 ≠ [] := by simp
      rw [List.cons_append, joinSep_cons sep p ((q :: rest2) ++ l2) hne,
        joinSep_cons sep p (q :: rest2) (by simp), ih (by simp)]
      simp [List.append_assoc]

theorem joinSep_ne_nil (sep : List Char) (l : List (List Char)) (hl : l ≠ [])
    (hp : ∀ p ∈ l, p ≠ []) : joinSep sep l ≠ [] := by
  match l with
  | [p] => exact hp p (List.mem_singleton.mpr rfl)
  | p :: q :: rest =>
    have hpne : p ≠ [] := hp p (List.mem_cons_self _ _)
    simp only [joinSep]
    intro h
    rcases List.append_eq_nil.mp h with ⟨h1, -⟩
    rcases List.append_eq_nil.mp h1 with ⟨h2, -⟩
    exact hpne h2

theorem joinSep_length_cons (sep : List Char) (p : List Char) (rest : List (List Char))
    (h : rest ≠ []) :
    (joinSep sep (p :: rest)).length = p.length + sep.length + (joinSep sep rest).length := by
  rw [joinSep_cons sep p rest h]
  simp [List.length_append]
  omega

theorem joinSep_length_append_single (sep : List Char) (buf : List (List Char))
    (s : List Char) :
    ((joinSep sep (buf ++ [s])).length : Int) =
      ((joinSep sep buf).length : Int) +
        (if buf ≠ [] then (sep.length : Int) else 0) + (s.length : Int) := by
  match buf with
  | [] => simp [joinSep]
  | p :: rest =>
    rw [joinSep_append_sep sep (p :: rest) [s] (by simp) (by simp)]
    simp only [List.length_append, joinSep, ne_eq, reduceCtorEq, not_false_eq_true, if_true]
    push_cast
    ring

theorem joinSep_head (sep : List Char) (p : List Char) (rest : List (List Char))
    (hp : p ≠ []) : (joinSep sep (p :: rest)).head? = p.head? := by
  match rest with
  | [] => rfl
  | q :: rest2 =>
    rw [joinSep_cons sep p (q :: rest2) (by simp)]
    match p, hp with
    | c :: pc, _ => rfl

theorem joinSep_suffix_last (sep : List Char) (init : List (List Char)) (p : List Char) :
    p <:+ joinSep sep (init ++ [p]) := by
  induction init with
  | nil => exact List.suffix_refl p
  | cons q rest ih =>
    rw [List.cons_append, joinSep_cons sep q (rest ++ [p]) (by simp)]
    exact ih.trans (List.suffix_append (q ++ sep) (joinSep sep (rest ++ [p])))

theorem joinSep_getLast_concat (sep : List Char) (init : List (List Char))
    (p : List Char) (hp : p ≠ []) :
    (joinSep sep (init ++ [p])).getLast? = p.getLast? := by
  obtain ⟨t, ht⟩ := joinSep_suffix_last sep init p
  rw [← ht]
  exact List.getLast?_append_of_ne_nil t hp

theorem trimChars_eq_self (l : List Char)
    (h1 : ∀ c, l.head? = some c → c.isWhitespace = false)
    (h2 : ∀ c, l.getLast? = some c → c.isWhitespace = false) : trimChars l = l := by
  unfold trimChars
  have hd : l.dropWhile Char.isWhitespace = l := by
    match l with
    | [] => rfl
    | c :: rest =>
      rw [List.dropWhile_cons, h1 c rfl]
      simp
  rw [hd]
  have hr : l.reverse.dropWhile Char.isWhitespace = l.reverse := by
    match hrev : l.reverse with
    | [] => rfl
    | c :: rest =>
      have hlast : l.getLast? = some c := by
        rw [← List.head?_reverse, hrev]
        rfl
      rw [List.dropWhile_cons, h2 c hlast]
      simp
  rw [hr, List.reverse_reverse]

theorem trimChars_length_le (l : List Char) : (trimChars l).length ≤ l.length := by
  unfold trimChars
  calc ((l.dropWhile Char.isWhitespace).reverse.dropWhile Char.isWhitespace).reverse.length
      = ((l.dropWhile Char.isWhitespace).reverse.dropWhile Char.isWhitespace).length := by
        rw [List.length_reverse]
    _ ≤ (l.dropWhile Char.isWhitespace).reverse.length :=
        (List.dropWhile_sublist Char.isWhitespace).length_le
    _ = (l.dropWhile Char.isWhitespace).length := by rw [List.length_reverse]
    _ ≤ l.length := (List.dropWhile_sublist Char.isWhitespace).length_le

/-! ### evict lemmas -/

theorem evict_general (cs co : Nat) (len sepLen : Int) (sep : List Char) :
    ∀ (buf : List (List Char)) (total : Int),
      (∃ pre, buf = pre ++ (evict cs co len sepLen sep buf total).1) ∧
      ((evict cs co len sepLen sep buf total).2 -
          ((joinSep sep (evict cs co len sepLen sep buf total).1).length : Int)
        = total - ((joinSep sep buf).length : Int)) ∧
      ((evict cs co len sepLen sep buf total).1 = [] ∨
        ((evict cs co len sepLen sep buf total).2 ≤ (co : Int) ∧
          ((evict cs co len sepLen sep buf total).2 + len + sepLen ≤ (cs : Int) ∨
            (evict cs co len sepLen sep buf total).2 ≤ 0))) := by
  intro buf
  induction buf with
  | nil =>
    intro total
    exact ⟨⟨[], rfl⟩, by simp [evict], Or.inl rfl⟩
  | cons p rest ih =>
    intro total
    have hunf : evict cs co len sepLen sep (p :: rest) total =
        (if total > (co : Int) ∨ (total + len + sepLen > (cs : Int) ∧ total > 0) then
          evict cs co len sepLen sep rest
            (total - ((p.length : Int) + (if rest ≠ [] then (sep.length : Int) else 0)))
        else (p :: rest, total)) := rfl
    by_cases hcond : total > (co : Int) ∨ (total + len + sepLen > (cs : Int) ∧ total > 0)
    · have hev : evict cs co len sepLen sep (p :: rest) total =
          evict cs co len sepLen sep rest
            (total - ((p.length : Int) + (if rest ≠ [] then (sep.length : Int) else 0))) := by
        rw [hunf, if_pos hcond]
      obtain ⟨⟨pre, hpre⟩, hdec, hexit⟩ :=
        ih (total - ((p.length : Int) + (if rest ≠ [] then (sep.length : Int) else 0)))
      refine ⟨⟨p :: pre, by rw [hev, List.cons_append, ← hpre]⟩, ?_, by rw [hev]; exact hexit⟩
      rw [hev, hdec]
      match rest with
      | [] => simp [joinSep]
      | q :: rest2 =>
        rw [joinSep_length_cons sep p (q :: rest2) (by simp)]
        simp only [ne_eq, reduceCtorEq, not_false_eq_true, if_true]
        push_cast
        ring
    · have hev : evict cs co len sepLen sep (p :: rest) total = (p :: rest, total) := by
        rw [hunf, if_neg hcond]
      push_neg at hcond
      rw [hev]
      exact ⟨⟨[], rfl⟩, by ring_nf, Or.inr ⟨hcond.1, by
        rcases le_or_lt (total + len + sepLen) (cs : Int) with h | h
        · exact Or.inl h
        · exact Or.inr (hcond.2 h)⟩⟩

theorem evict_retention (cs co : Nat) (len sepLen : Int) (sep : List Char)
    (hstop : len + sepLen + (co : Int) ≤ (cs : Int)) :
    ∀ (buf : List (List Char)) (total : Int), buf ≠ [] →
      total = ((joinSep sep buf).length : Int) →
      (∀ p ∈ buf, p ≠ [] ∧ (p.length : Int) ≤ (co : Int)) →
      (∃ pre, buf = pre ++ (evict cs co len sepLen sep buf total).1) ∧
      (evict cs co len sepLen sep buf total).1 ≠ [] ∧
      (evict cs co len sepLen sep buf total).2 =
        ((joinSep sep (evict cs co len sepLen sep buf total).1).length : Int) := by
  intro buf
  induction buf with
  | nil => intro total h; exact absurd rfl h
  | cons p rest ih =>
    intro total hne htot hgood
    match rest with
    | [] =>
      have hplen : (p.length : Int) ≤ (co : Int) := (hgood p (List.mem_singleton.mpr rfl)).2
      have htot2 : total = (p.length : Int) := by
        rw [htot]
        rfl
      have hcond : ¬ (total > (co : Int) ∨
          (total + len + sepLen > (cs : Int) ∧ total > 0)) := by
        push_neg
        constructor
        · rw [htot2]; exact hplen
        · intro h
          rw [htot2]
          omega
      have hunf : evict cs co len sepLen sep [p] total =
          (if total > (co : Int) ∨ (total + len + sepLen > (cs : Int) ∧ total > 0) then
            evict cs co len sepLen sep []
              (total - ((p.length : Int) + (if ([] : List (List Char)) ≠ [] then (sep.length : Int) else 0)))
          else ([p], total)) := rfl
      have hev : evict cs co len sepLen sep [p] total = ([p], total) := by
        rw [hunf, if_neg hcond]
      rw [hev]
      exact ⟨⟨[], rfl⟩, by simp, htot⟩
    | q :: rest2 =>
      by_cases hcond : total > (co : Int) ∨ (total + len + sepLen > (cs : Int) ∧ total > 0)
      · have hunf : evict cs co len sepLen sep (p :: q :: rest2) total =
            (if total > (co : Int) ∨ (total + len + sepLen > (cs : Int) ∧ total > 0) then
              evict cs co len sepLen sep (q :: rest2)
                (total - ((p.length : Int) +
                  (if (q :: rest2 : List (List Char)) ≠ [] then (sep.length : Int) else 0)))
            else (p :: q :: rest2, total)) := rfl
        have hev : evict cs co len sepLen sep (p :: q :: rest2) total =
            evict cs co len sepLen sep (q :: rest2)
              (total - ((p.length : Int) + (sep.length : Int))) := by
          rw [hunf, if_pos hcond]
          simp only [ne_eq, reduceCtorEq, not_false_eq_true, if_true]
        have htot2 : total - ((p.length : Int) + (sep.length : Int)) =
            ((joinSep sep (q :: rest2)).length : Int) := by
          rw [htot, joinSep_length_cons sep p (q :: rest2) (by simp)]
          push_cast
          ring
        obtain ⟨⟨pre, hpre⟩, hne2, htot3⟩ := ih _ (by simp) htot2
          (fun r hr => hgood r (List.mem_cons_of_mem p hr))
        rw [hev]
        exact ⟨⟨p :: pre, by rw [List.cons_append, ← hpre]⟩, hne2, htot3⟩
      · have hunf : evict cs co len sepLen sep (p :: q :: rest2) total =
            (if total > (co : Int) ∨ (total + len + sepLen > (cs : Int) ∧ total > 0) then
              evict cs co len sepLen sep (q :: rest2)
                (total - ((p.length : Int) +
                  (if (q :: rest2 : List (List Char)) ≠ [] then (sep.length : Int) else 0)))
            else (p :: q :: rest2, total)) := rfl
        have hev : evict cs co len sepLen sep (p :: q :: rest2) total =
            (p :: q :: rest2, total) := by
          rw [hunf, if_neg hcond]
        rw [hev]
        exact ⟨⟨[], rfl⟩, by simp, htot⟩

/-! ### C6: overlap of consecutive merged chunks -/

/-- The first character, if any, is not whitespace. -/
def noWsHead (p : List Char) : Prop :=
  match p.head? with
  | none => True
  | some c => c.isWhitespace = false

/-- The last character, if any, is not whitespace. -/
def noWsLast (p : List Char) : Prop :=
  match p.getLast? with
  | none => True
  | some c => c.isWhitespace = false

instance (p : List Char) : Decidable (noWsHead p) := by
  unfold noWsHead
  match p.head? with
  | none => exact inferInstanceAs (Decidable True)
  | some c => exact inferInstanceAs (Decidable (c.isWhitespace = false))

instance (p : List Char) : Decidable (noWsLast p) := by
  unfold noWsLast
  match p.getLast? with
  | none => exact inferInstanceAs (Decidable True)
  | some c => exact inferInstanceAs (Decidable (c.isWhitespace = false))

theorem noWsHead_spec (p : List Char) (h : noWsHead p) :
    ∀ c, p.head? = some c → c.isWhitespace = false := by
  intro c hc
  unfold noWsHead at h
  rw [hc] at h
  exact h

theorem noWsLast_spec (p : List Char) (h : noWsLast p) :
    ∀ c, p.getLast? = some c → c.isWhitespace = false := by
  intro c hc
  unfold noWsLast at h
  rw [hc] at h
  exact h

/-- Sufficient conditions on a run piece under which the merge step's eviction
always retains an overlap seed and trimming never erases it: non-empty, no
leading/trailing whitespace, within the overlap budget, and small enough that
the eviction loop's second condition cannot empty the buffer. -/
def PieceOk (cs co : Nat) (sep : List Char) (p : List Char) : Prop :=
  p ≠ [] ∧ noWsHead p ∧ noWsLast p ∧
  (p.length : Int) ≤ (co : Int) ∧
  (p.length : Int) + (sep.length : Int) + (co : Int) ≤ (cs : Int)

instance (cs co : Nat) (sep : List Char) (p : List Char) :
    Decidable (PieceOk cs co sep p) :=
  inferInstanceAs (Decidable (_ ∧ _))

/-- Two chunks share a non-empty overlapping suffix/prefix. -/
def OverlapOk (d1 d2 : List Char) : Prop :=
  ∃ o, o ≠ [] ∧ o <:+ d1 ∧ o <+: d2

theorem joinSep_head_good (cs co : Nat) (sep : List Char) (buf : List (List Char))
    (hbuf : buf ≠ []) (hgood : ∀ p ∈ buf, PieceOk cs co sep p) :
    ∀ c, (joinSep sep buf).head? = some c → c.isWhitespace = false := by
  match buf with
  | p :: rest =>
    intro c hc
    rw [joinSep_head sep p rest (hgood p (List.mem_cons_self _ _)).1] at hc
    exact noWsHead_spec p (hgood p (List.mem_cons_self _ _)).2.1 c hc

theorem joinSep_getLast_good (cs co : Nat) (sep : List Char) (buf : List (List Char))
    (hbuf : buf ≠ []) (hgood : ∀ p ∈ buf, PieceOk cs co sep p) :
    ∀ c, (joinSep sep buf).getLast? = some c → c.isWhitespace = false := by
  intro c hc
  obtain ⟨init, p, rfl⟩ := List.eq_nil_or_concat buf |>.resolve_left hbuf
  simp only [List.concat_eq_append] at hc hgood
  have hp : p ∈ init ++ [p] := List.mem_append_right init (List.mem_singleton.mpr rfl)
  rw [joinSep_getLast_concat sep init p (hgood p hp).1] at hc
  exact noWsLast_spec p (hgood p hp).2.2.1 c hc

theorem joinDocs_good (cs co : Nat) (sep : List Char) (buf : List (List Char))
    (hbuf : buf ≠ []) (hgood : ∀ p ∈ buf, PieceOk cs co sep p) :
    joinDocs sep buf = some (joinSep sep buf) := by
  have htrim : trimChars (joinSep sep buf) = joinSep sep buf :=
    trimChars_eq_self _ (joinSep_head_good cs co sep buf hbuf hgood)
      (joinSep_getLast_good cs co sep buf hbuf hgood)
  have hne : joinSep sep buf ≠ [] :=
    joinSep_ne_nil sep buf hbuf (fun p hp => (hgood p hp).1)
  unfold joinDocs
  simp only [htrim]
  rw [if_neg hne]

theorem joinSep_of_prefix (sep : List Char) (sig buf : List (List Char))
    (h : sig <+: buf) (hsig : sig ≠ []) :
    joinSep sep sig <+: joinSep sep buf := by
  obtain ⟨t, rfl⟩ := h
  match t with
  | [] => rw [List.append_nil]
  | u :: t2 =>
    rw [joinSep_append_sep sep sig (u :: t2) hsig (by simp)]
    exact (List.prefix_append (joinSep sep sig) sep).trans
      (List.prefix_append (joinSep sep sig ++ sep) (joinSep sep (u :: t2)))

theorem joinSep_of_suffix (sep : List Char) (sig buf : List (List Char))
    (h : sig <:+ buf) (hsig : sig ≠ []) :
    joinSep sep sig <:+ joinSep sep buf := by
  obtain ⟨t, rfl⟩ := h
  match t with
  | [] => rw [List.nil_append]
  | u :: t2 =>
    rw [joinSep_append_sep sep (u :: t2) sig (by simp) hsig]
    exact List.suffix_append (joinSep sep (u :: t2) ++ sep) (joinSep sep sig)

/-- The invariant of the `_mergeSplits` loop under good pieces: emitted docs
chain with overlaps, the buffer holds good pieces, the running total is exact,
and a non-empty prefix of the buffer is a suffix of the last emitted doc. -/
def MInv (cs co : Nat) (sep : List Char) (st : MState) : Prop :=
  List.Chain' OverlapOk st.docs ∧
  (∀ p ∈ st.buf, PieceOk cs co sep p) ∧
  st.total = ((joinSep sep st.buf).length : Int) ∧
  (∀ d, st.docs.getLast? = some d →
    ∃ sig, sig ≠ [] ∧ sig <+: st.buf ∧ joinSep sep sig <:+ d) ∧
  (st.buf = [] → st.docs = [])

theorem chain_extend (cs co : Nat) (sep : List Char) (docs : List (List Char))
    (buf : List (List Char))
    (hchain : List.Chain' OverlapOk docs)
    (hlink : ∀ x, docs.getLast? = some x →
      ∃ sig, sig ≠ [] ∧ sig <+: buf ∧ joinSep sep sig <:+ x)
    (hpieces : ∀ p ∈ buf, PieceOk cs co sep p) :
    List.Chain' OverlapOk (docs ++ [joinSep sep buf]) := by
  refine List.chain'_append.mpr ⟨hchain, List.chain'_singleton _, ?_⟩
  intro x hx y hy
  have hy2 : y = joinSep sep buf := by
    simp only [List.head?_cons, Option.mem_def, Option.some_inj] at hy
    exact hy.symm
  subst hy2
  obtain ⟨sig, hsne, hspre, hssuf⟩ := hlink x (Option.mem_def.mp hx)
  exact ⟨joinSep sep sig,
    joinSep_ne_nil sep sig hsne (fun p hp => (hpieces p (hspre.subset hp)).1),
    hssuf, joinSep_of_prefix sep sig buf hspre hsne⟩

theorem mergeStep_MInv (cs co : Nat) (sep : List Char) (st : MState) (s : List Char)
    (hinv : MInv cs co sep st) (hs : PieceOk cs co sep s) :
    MInv cs co sep (mergeStep cs co sep st s) := by
  obtain ⟨hchain, hpieces, htot, hlink, hbe⟩ := hinv
  have hunf : mergeStep cs co sep st s =
      (if st.total + (s.length : Int) +
            (if st.buf ≠ [] then (sep.length : Int) else 0) > (cs : Int) ∧ st.buf ≠ [] then
        ⟨(match joinDocs sep st.buf with
           | none => st.docs
           | some d => st.docs ++ [d]),
         (evict cs co (s.length : Int) (if st.buf ≠ [] then (sep.length : Int) else 0)
            sep st.buf st.total).1 ++ [s],
         (evict cs co (s.length : Int) (if st.buf ≠ [] then (sep.length : Int) else 0)
            sep st.buf st.total).2 + (s.length : Int) +
           (if st.buf ≠ [] then (sep.length : Int) else 0)⟩
      else ⟨st.docs, st.buf ++ [s],
        st.total + (s.length : Int) + (if st.buf ≠ [] then (sep.length : Int) else 0)⟩) := rfl
  rw [hunf]
  by_cases hc : st.total + (s.length : Int) +
      (if st.buf ≠ [] then (sep.length : Int) else 0) > (cs : Int) ∧ st.buf ≠ []
  · rw [if_pos hc]
    obtain ⟨hover, hbufne⟩ := hc
    have hsl : (if st.buf ≠ [] then (sep.length : Int) else 0) = (sep.length : Int) :=
      if_pos hbufne
    rw [hsl]
    have hj : (match joinDocs sep st.buf with
        | none => st.docs
        | some d => st.docs ++ [d]) = st.docs ++ [joinSep sep st.buf] := by
      rw [joinDocs_good cs co sep st.buf hbufne hpieces]
    rw [hj]
    have hstop : (s.length : Int) + (sep.length : Int) + (co : Int) ≤ (cs : Int) :=
      hs.2.2.2.2
    obtain ⟨⟨pre, hpre⟩, hevne, hevtot⟩ :=
      evict_retention cs co (s.length : Int) (sep.length : Int) sep hstop st.buf st.total
        hbufne htot (fun p hp => ⟨(hpieces p hp).1, (hpieces p hp).2.2.2.1⟩)
    have hevmem : ∀ p ∈ (evict cs co (s.length : Int) (sep.length : Int)
        sep st.buf st.total).1, p ∈ st.buf := by
      intro p hp
      rw [hpre]
      exact List.mem_append_right pre hp
    refine ⟨?_, ?_, ?_, ?_, ?_⟩
    · exact chain_extend cs co sep st.docs st.buf hchain hlink hpieces
    · intro p hp
      rcases List.mem_append.mp hp with h | h
      · exact hpieces p (hevmem p h)
      · rcases List.mem_singleton.mp h with rfl
        exact hs
    · show _ + _ + _ = _
      rw [joinSep_length_append_single sep _ s, if_pos hevne, hevtot]
      ring
    · intro d hd
      rw [List.getLast?_concat] at hd
      rcases Option.some_inj.mp hd with rfl
      exact ⟨(evict cs co (s.length : Int) (sep.length : Int) sep st.buf st.total).1,
        hevne, List.prefix_append _ [s],
        joinSep_of_suffix sep _ st.buf ⟨pre, hpre.symm⟩ hevne⟩
    · intro h
      exact absurd h (by simp)
  · rw [if_neg hc]
    refine ⟨hchain, ?_, ?_, ?_, ?_⟩
    · intro p hp
      rcases List.mem_append.mp hp with h | h
      · exact hpieces p h
      · rcases List.mem_singleton.mp h with rfl
        exact hs
    · show _ + _ + _ = _
      rw [joinSep_length_append_single sep st.buf s, htot]
      ring
    · intro d hd
      obtain ⟨sig, hsne, hspre, hssuf⟩ := hlink d hd
      exact ⟨sig, hsne, hspre.trans (List.prefix_append st.buf [s]), hssuf⟩
    · intro h
      exact absurd h (by simp)

theorem foldl_mergeStep_MInv (cs co : Nat) (sep : List Char) (splits : List (List Char))
    (h : ∀ p ∈ splits, PieceOk cs co sep p) :
    ∀ st0 : MState, MInv cs co sep st0 →
      MInv cs co sep (splits.foldl (mergeStep cs co sep) st0) := by
  induction splits with
  | nil => intro st0 h0; exact h0
  | cons s rest ih =>
    intro st0 h0
    simp only [List.foldl_cons]
    exact ih (fun p hp => h p (List.mem_cons_of_mem s hp))
      (mergeStep cs co sep st0 s)
      (mergeStep_MInv cs co sep st0 s h0 (h s (List.mem_cons_self s rest)))

theorem mergeSplits_eq (cs co : Nat) (sep : List Char) (splits : List (List Char)) :
    mergeSplits cs co sep splits =
      (match joinDocs sep ((splits.foldl (mergeStep cs co sep) ⟨[], [], 0⟩).buf) with
       | none => (splits.foldl (mergeStep cs co sep) ⟨[], [], 0⟩).docs
       | some d => (splits.foldl (mergeStep cs co sep) ⟨[], [], 0⟩).docs ++ [d]) := rfl

theorem mergeSplits_chain (cs co : Nat) (sep : List Char) (splits : List (List Char))
    (h : ∀ p ∈ splits, PieceOk cs co sep p) :
    List.Chain' OverlapOk (mergeSplits cs co sep splits) := by
  have hinv : MInv cs co sep (splits.foldl (mergeStep cs co sep) ⟨[], [], 0⟩) := by
    apply foldl_mergeStep_MInv cs co sep splits h
    exact ⟨List.chain'_nil, fun p hp => ((List.not_mem_nil p) hp).elim, rfl,
      fun d hd => Option.noConfusion hd, fun _ => rfl⟩
  obtain ⟨hchain, hpieces, htot, hlink, hbe⟩ := hinv
  rw [mergeSplits_eq]
  match hb : (splits.foldl (mergeStep cs co sep) ⟨[], [], 0⟩).buf with
  | [] =>
    have hjn : joinDocs sep ([] : List (List Char)) = none := rfl
    rw [hjn]
    exact hchain
  | p :: rest =>
    rw [joinDocs_good cs co sep (p :: rest) (by simp) (by rw [← hb]; exact hpieces)]
    apply chain_extend cs co sep _ (p :: rest) hchain
    · intro x hx
      obtain ⟨sig, h1, h2, h3⟩ := hlink x hx
      exact ⟨sig, h1, by rw [← hb]; exact h2, h3⟩
    · rw [← hb]
      exact hpieces

/-- C6 counterexample: with chunkSize 20 and chunkOverlap 10, the run of two
15-character pieces (below chunkSize, produced by the Splitter itself from a
single run) merges into two chunks that share no non-empty suffix/prefix: the
eviction loop pops the entire buffer because the single retained piece still
exceeds the overlap budget. -/
theorem mergeSplitsNoOverlapCex :
    0 < 10 ∧ 10 < 20 ∧
    (List.replicate 15 'a').length < 20 ∧ (List.replicate 15 'b').length < 20 ∧
    splitText 20 10 [" ".data]
        (List.replicate 15 'a' ++ [' '] ++ List.replicate 15 'b')
      = [List.replicate 15 'a', List.replicate 15 'b'] ∧
    mergeSplits 20 10 [' '] [List.replicate 15 'a', List.replicate 15 'b']
      = [List.replicate 15 'a', List.replicate 15 'b'] ∧
    ¬ OverlapOk (List.replicate 15 'a') (List.replicate 15 'b') := by
  refine ⟨by decide, by decide, by decide, by decide, by decide, by decide, ?_⟩
  rintro ⟨o, hne, hsuf, hpre⟩
  obtain ⟨c, hc⟩ := List.exists_mem_of_ne_nil o hne
  have ha : c = 'a' := List.eq_of_mem_replicate (hsuf.subset hc)
  have hb : c = 'b' := List.eq_of_mem_replicate (hpre.subset hc)
  rw [ha] at hb
  exact absurd hb (by decide)

/-- C6 amended: with `0 < chunkOverlap < chunkSize`, consecutive chunks the
merge step produces from one run of small pieces share a non-empty overlapping
suffix/prefix provided every piece of the run is non-empty, free of leading
and trailing whitespace, no longer than `chunkOverlap`, and satisfies
`piece + separator + chunkOverlap ≤ chunkSize` (so the eviction loop always
retains at least one piece and trimming preserves the shared text).  Without
these provisos the overlap can be empty (see the counterexample). -/
theorem mergeSplitsOverlapAmended (cs co : Nat) (sep : List Char)
    (splits : List (List Char)) (_hco : 0 < co) (_hcs : co < cs)
    (h : ∀ p ∈ splits, PieceOk cs co sep p) :
    List.Chain' OverlapOk (mergeSplits cs co sep splits) :=
  mergeSplits_chain cs co sep splits h

theorem mergeSplitsOverlapAmendedWitness :
    ((0 < 5 ∧ 5 < 11) ∧
      (∀ p ∈ ["abcde".data, "fghij".data, "klmno".data], PieceOk 11 5 [' '] p)) ∧
    List.Chain' OverlapOk
      (mergeSplits 11 5 [' '] ["abcde".data, "fghij".data, "klmno".data]) :=
  ⟨⟨⟨by decide, by decide⟩, by decide⟩,
    mergeSplitsOverlapAmended 11 5 [' '] ["abcde".data, "fghij".data, "klmno".data]
      (by decide) (by decide) (by decide)⟩

/-! ### C5: findOcc and splitOnSep lemmas -/

theorem findOcc_some_pref (sep : List Char) :
    ∀ (text : List Char) (i : Nat), findOcc sep text = some i → sep <+: text.drop i := by
  intro text
  induction text with
  | nil =>
    intro i h
    unfold findOcc at h
    by_cases hp : sep.isPrefixOf ([] : List Char)
    · rw [if_pos hp] at h
      rcases Option.some_inj.mp h with rfl
      exact List.isPrefixOf_iff_prefix.mp hp
    · rw [if_neg hp] at h
      cases h
  | cons c rest ih =>
    intro i h
    unfold findOcc at h
    by_cases hp : sep.isPrefixOf (c :: rest)
    · rw [if_pos hp] at h
      rcases Option.some_inj.mp h with rfl
      exact List.isPrefixOf_iff_prefix.mp hp
    · rw [if_neg hp] at h
      match hf : findOcc sep rest with
      | none => rw [hf] at h; cases h
      | some j =>
        rw [hf] at h
        simp only [Option.map_some', Option.some_inj] at h
        subst h
        rw [List.drop_succ_cons]
        exact ih j hf

theorem findOcc_some_min (sep : List Char) :
    ∀ (text : List Char) (i : Nat), findOcc sep text = some i →
      ∀ j, j < i → ¬ sep <+: text.drop j := by
  intro text
  induction text with
  | nil =>
    intro i h j hj
    unfold findOcc at h
    by_cases hp : sep.isPrefixOf ([] : List Char)
    · rw [if_pos hp] at h
      rcases Option.some_inj.mp h with rfl
      exact absurd hj (by omega)
    · rw [if_neg hp] at h
      cases h
  | cons c rest ih =>
    intro i h j hj
    unfold findOcc at h
    by_cases hp : sep.isPrefixOf (c :: rest)
    · rw [if_pos hp] at h
      rcases Option.some_inj.mp h with rfl
      exact absurd hj (by omega)
    · rw [if_neg hp] at h
      match hf : findOcc sep rest with
      | none => rw [hf] at h; cases h
      | some k =>
        rw [hf] at h
        simp only [Option.map_some', Option.some_inj] at h
        subst h
        match j with
        | 0 =>
          intro hpre
          exact hp (List.isPrefixOf_iff_prefix.mpr hpre)
        | j2 + 1 =>
          rw [List.drop_succ_cons]
          exact ih k hf j2 (by omega)

theorem findOcc_none (sep : List Char) :
    ∀ (text : List Char), findOcc sep text = none → ∀ j, ¬ sep <+: text.drop j := by
  intro text
  induction text with
  | nil =>
    intro h j
    unfold findOcc at h
    by_cases hp : sep.isPrefixOf ([] : List Char)
    · rw [if_pos hp] at h; cases h
    · rw [if_neg hp] at h
      intro hpre
      have hnil : sep <+: ([] : List Char) := by simpa using hpre
      exact hp (List.isPrefixOf_iff_prefix.mpr hnil)
  | cons c rest ih =>
    intro h j
    unfold findOcc at h
    by_cases hp : sep.isPrefixOf (c :: rest)
    · rw [if_pos hp] at h; cases h
    · rw [if_neg hp] at h
      match hf : findOcc sep rest with
      | some k => rw [hf] at h; cases h
      | none =>
        match j with
        | 0 =>
          intro hpre
          exact hp (List.isPrefixOf_iff_prefix.mpr hpre)
        | j2 + 1 =>
          rw [List.drop_succ_cons]
          exact ih hf j2

theorem findOcc_some_le (sep : List Char) (text : List Char) (i : Nat)
    (h : findOcc sep text = some i) (hsep : sep ≠ []) :
    i + sep.length ≤ text.length := by
  have hpre := findOcc_some_pref sep text i h
  have hlen := hpre.length_le
  rw [List.length_drop] at hlen
  by_cases hi : i ≤ text.length
  · omega
  · exfalso
    have : text.drop i = [] := List.drop_eq_nil_of_le (by omega)
    rw [this] at hpre
    have : sep = [] := List.prefix_nil.mp hpre
    exact hsep this

theorem occ_iff_drop (sep p : List Char) :
    sep <:+: p ↔ ∃ j, sep <+: p.drop j := by
  constructor
  · rintro ⟨s, t, rfl⟩
    refine ⟨s.length, ?_⟩
    rw [List.append_assoc, List.drop_left]
    exact ⟨t, rfl⟩
  · rintro ⟨j, t, ht⟩
    exact ⟨p.take j, t, by rw [List.append_assoc, ht, List.take_append_drop]⟩

theorem splitOnSepAux_infix :
    ∀ (fuel : Nat) (sep text : List Char), ∀ p ∈ splitOnSepAux fuel sep text,
      p <:+: text := by
  intro fuel
  induction fuel with
  | zero =>
    intro sep text p hp
    rcases List.mem_singleton.mp hp with rfl
    exact List.infix_refl p
  | succ fuel ih =>
    intro sep text p hp
    unfold splitOnSepAux at hp
    match hf : findOcc sep text with
    | none =>
      rw [hf] at hp
      rcases List.mem_singleton.mp hp with rfl
      exact List.infix_refl p
    | some i =>
      rw [hf] at hp
      rcases List.mem_cons.mp hp with rfl | hp2
      · exact (List.take_prefix i text).isInfix
      · exact (ih sep (text.drop (i + sep.length)) p hp2).trans
          (List.drop_suffix (i + sep.length) text).isInfix

theorem splitOnSepAux_no_occ :
    ∀ (fuel : Nat) (sep text : List Char), sep ≠ [] → text.length < fuel →
      ∀ p ∈ splitOnSepAux fuel sep text, ¬ sep <:+: p := by
  intro fuel
  induction fuel with
  | zero =>
    intro sep text hsep hlen
    exact absurd hlen (by omega)
  | succ fuel ih =>
    intro sep text hsep hlen p hp
    unfold splitOnSepAux at hp
    match hf : findOcc sep text with
    | none =>
      rw [hf] at hp
      rcases List.mem_singleton.mp hp with rfl
      intro hinf
      obtain ⟨j, hj⟩ := (occ_iff_drop sep p).mp hinf
      exact findOcc_none sep p hf j hj
    | some i =>
      rw [hf] at hp
      rcases List.mem_cons.mp hp with rfl | hp2
      · intro hinf
        obtain ⟨j, hj⟩ := (occ_iff_drop sep (text.take i)).mp hinf
        have hjlt : j < i := by
          by_contra hge
          have hnil : (text.take i).drop j = [] :=
            List.drop_eq_nil_of_le (by
              have := List.length_take i text
              omega)
          rw [hnil] at hj
          exact hsep (List.prefix_nil.mp hj)
        have hj2 : sep <+: text.drop j := by
          rw [List.drop_take i j text] at hj
          exact hj.trans (List.take_prefix (i - j) (text.drop j))
        exact findOcc_some_min sep text i hf j hjlt hj2
      · have hle := findOcc_some_le sep text i hf hsep
        have hlen2 : (text.drop (i + sep.length)).length < fuel := by
          rw [List.length_drop]
          have hsl : 1 ≤ sep.length := List.length_pos.mpr hsep
          omega
        exact ih sep (text.drop (i + sep.length)) hsep hlen2 p hp2

theorem splitOnSep_infix (sep text : List Char) :
    ∀ p ∈ splitOnSep sep text, p <:+: text :=
  fun p hp => splitOnSepAux_infix (text.length + 1) sep text p hp

theorem splitOnSep_no_occ (sep text : List Char) (hsep : sep ≠ []) :
    ∀ p ∈ splitOnSep sep text, ¬ sep <:+: p :=
  fun p hp => splitOnSepAux_no_occ (text.length + 1) sep text hsep (by omega) p hp

/-! ### C5: chooseSep decomposition -/

theorem chooseSep_spec (text : List Char) :
    ∀ (seps : List (List Char)), seps ≠ [] →
      (∃ pre post, seps = pre ++ ([] : List Char) :: post ∧
        (∀ x ∈ pre, x ≠ [] ∧ ¬ x <:+: text) ∧ chooseSep text seps = ([], [])) ∨
      (∃ pre, seps = pre ++ (chooseSep text seps).1 :: (chooseSep text seps).2 ∧
        (∀ x ∈ pre, x ≠ [] ∧ ¬ x <:+: text) ∧
        (chooseSep text seps).1 ≠ [] ∧ (chooseSep text seps).1 <:+: text) ∨
      (∃ pre s0, seps = pre ++ [s0] ∧
        (∀ x ∈ pre ++ [s0], x ≠ [] ∧ ¬ x <:+: text) ∧ chooseSep text seps = (s0, [])) := by
  intro seps
  induction seps with
  | nil => intro h; exact absurd rfl h
  | cons s rest ih =>
    intro hne
    by_cases hs : s = []
    · subst hs
      refine Or.inl ⟨[], rest, rfl, fun x hx => absurd hx (List.not_mem_nil x), ?_⟩
      unfold chooseSep
      rw [if_pos rfl]
    · by_cases hinf : s <:+: text
      · have hc : chooseSep text (s :: rest) = (s, rest) := by
          unfold chooseSep
          rw [if_neg hs, if_pos hinf]
        refine Or.inr (Or.inl ⟨[], ?_, fun x hx => absurd hx (List.not_mem_nil x), ?_, ?_⟩)
        · simp [hc]
        · rw [hc]; exact hs
        · rw [hc]; exact hinf
      · match rest with
        | [] =>
          have hc : chooseSep text [s] = (s, []) := by
            unfold chooseSep
            rw [if_neg hs, if_neg hinf]
          refine Or.inr (Or.inr ⟨[], s, rfl, ?_, hc⟩)
          intro x hx
          rw [List.nil_append] at hx
          rcases List.mem_singleton.mp hx with rfl
          exact ⟨hs, hinf⟩
        | t :: rest2 =>
          have hc : chooseSep text (s :: t :: rest2) = chooseSep text (t :: rest2) := by
            have hunf : chooseSep text (s :: t :: rest2) =
                (if s = [] then ([], [])
                 else if s <:+: text then (s, t :: rest2)
                 else chooseSep text (t :: rest2)) := rfl
            rw [hunf, if_neg hs, if_neg hinf]
          rcases ih (by simp) with ⟨pre, post, heq, hpre, hch⟩ |
            ⟨pre, heq, hpre, h1, h2⟩ | ⟨pre, s0, heq, hpre, hch⟩
          · refine Or.inl ⟨s :: pre, post, by rw [List.cons_append, ← heq],
              ?_, by rw [hc]; exact hch⟩
            intro x hx
            rcases List.mem_cons.mp hx with rfl | hx2
            · exact ⟨hs, hinf⟩
            · exact hpre x hx2
          · refine Or.inr (Or.inl ⟨s :: pre, ?_, ?_, ?_, ?_⟩)
            · rw [hc, List.cons_append, ← heq]
            · intro x hx
              rcases List.mem_cons.mp hx with rfl | hx2
              · exact ⟨hs, hinf⟩
              · exact hpre x hx2
            · rw [hc]; exact h1
            · rw [hc]; exact h2
          · refine Or.inr (Or.inr ⟨s :: pre, s0, by rw [List.cons_append, ← heq],
              ?_, by rw [hc]; exact hch⟩)
            intro x hx
            rcases List.mem_cons.mp hx with rfl | hx2
            · exact ⟨hs, hinf⟩
            · exact hpre x hx2

/-! ### C5: merge bound -/

/-- Invariant for the chunk-size bound of the merge loop: emitted docs fit,
buffer pieces are non-empty splits below the chunk size, the running total
dominates the joined length, and the joined buffer itself fits. -/
def MBInv (cs : Nat) (sep : List Char) (st : MState) : Prop :=
  (∀ d ∈ st.docs, d.length ≤ cs) ∧
  (∀ p ∈ st.buf, p ≠ [] ∧ p.length < cs) ∧
  ((joinSep sep st.buf).length : Int) ≤ st.total ∧
  (joinSep sep st.buf).length ≤ cs

theorem joinSep_length_ge_one (sep : List Char) (l : List (List Char)) (hl : l ≠ [])
    (hp : ∀ p ∈ l, p ≠ []) : 1 ≤ (joinSep sep l).length :=
  List.length_pos.mpr (joinSep_ne_nil sep l hl hp)

theorem joinDocs_length_le (sep : List Char) (buf : List (List Char)) (d : List Char)
    (h : joinDocs sep buf = some d) : d.length ≤ (joinSep sep buf).length := by
  unfold joinDocs at h
  by_cases ht : trimChars (joinSep sep buf) = []
  · simp only [ht, if_pos] at h
    cases h
  · simp only [if_neg ht] at h
    rcases Option.some_inj.mp h with rfl
    exact trimChars_length_le (joinSep sep buf)

theorem mergeStep_MBInv (cs co : Nat) (sep : List Char) (st : MState) (s : List Char)
    (hinv : MBInv cs sep st) (hs : s ≠ [] ∧ s.length < cs) :
    MBInv cs sep (mergeStep cs co sep st s) := by
  obtain ⟨hdocs, hpieces, hle, hfit⟩ := hinv
  have hunf : mergeStep cs co sep st s =
      (if st.total + (s.length : Int) +
            (if st.buf ≠ [] then (sep.length : Int) else 0) > (cs : Int) ∧ st.buf ≠ [] then
        ⟨(match joinDocs sep st.buf with
           | none => st.docs
           | some d => st.docs ++ [d]),
         (evict cs co (s.length : Int) (if st.buf ≠ [] then (sep.length : Int) else 0)
            sep st.buf st.total).1 ++ [s],
         (evict cs co (s.length : Int) (if st.buf ≠ [] then (sep.length : Int) else 0)
            sep st.buf st.total).2 + (s.length : Int) +
           (if st.buf ≠ [] then (sep.length : Int) else 0)⟩
      else ⟨st.docs, st.buf ++ [s],
        st.total + (s.length : Int) + (if st.buf ≠ [] then (sep.length : Int) else 0)⟩) := rfl
  rw [hunf]
  by_cases hc : st.total + (s.length : Int) +
      (if st.buf ≠ [] then (sep.length : Int) else 0) > (cs : Int) ∧ st.buf ≠ []
  · rw [if_pos hc]
    obtain ⟨hover, hbufne⟩ := hc
    have hsl : (if st.buf ≠ [] then (sep.length : Int) else 0) = (sep.length : Int) :=
      if_pos hbufne
    rw [hsl]
    obtain ⟨⟨pre, hpre⟩, hdec, hexit⟩ :=
      evict_general cs co (s.length : Int) (sep.length : Int) sep st.buf st.total
    have hevmem : ∀ p ∈ (evict cs co (s.length : Int) (sep.length : Int)
        sep st.buf st.total).1, p ∈ st.buf := by
      intro p hp
      rw [hpre]
      exact List.mem_append_right pre hp
    have hevle : ((joinSep sep (evict cs co (s.length : Int) (sep.length : Int)
        sep st.buf st.total).1).length : Int) ≤
        (evict cs co (s.length : Int) (sep.length : Int) sep st.buf st.total).2 := by
      omega
    have hJapp := joinSep_length_append_single sep
      (evict cs co (s.length : Int) (sep.length : Int) sep st.buf st.total).1 s
    refine ⟨?_, ?_, ?_, ?_⟩
    · intro d hd
      match hj : joinDocs sep st.buf with
      | none =>
        rw [hj] at hd
        exact hdocs d hd
      | some d2 =>
        rw [hj] at hd
        rcases List.mem_append.mp hd with h | h
        · exact hdocs d h
        · rcases List.mem_singleton.mp h with rfl
          exact le_trans (joinDocs_length_le sep st.buf d hj) hfit
    · intro p hp
      rcases List.mem_append.mp hp with h | h
      · exact hpieces p (hevmem p h)
      · rcases List.mem_singleton.mp h with rfl
        exact hs
    · show ((joinSep sep ((evict cs co (s.length : Int) (sep.length : Int)
          sep st.buf st.total).1 ++ [s])).length : Int) ≤
        (evict cs co (s.length : Int) (sep.length : Int) sep st.buf st.total).2 +
          (s.length : Int) + (sep.length : Int)
      by_cases hev : (evict cs co (s.length : Int) (sep.length : Int)
          sep st.buf st.total).1 = []
      · rw [if_neg (fun h => h hev)] at hJapp
        omega
      · rw [if_pos hev] at hJapp
        omega
    · show (joinSep sep (_ ++ [s])).length ≤ cs
      by_cases hev : (evict cs co (s.length : Int) (sep.length : Int)
          sep st.buf st.total).1 = []
      · rw [hev, List.nil_append]
        exact le_of_lt hs.2
      · rcases hexit.resolve_left hev with ⟨-, h2 | h2⟩
        · rw [if_pos hev] at hJapp
          omega
        · exfalso
          have h1 := joinSep_length_ge_one sep _ hev
            (fun p hp => (hpieces p (hevmem p hp)).1)
          omega
  · rw [if_neg hc]
    push_neg at hc
    have hJapp := joinSep_length_append_single sep st.buf s
    refine ⟨hdocs, ?_, ?_, ?_⟩
    · intro p hp
      rcases List.mem_append.mp hp with h | h
      · exact hpieces p h
      · rcases List.mem_singleton.mp h with rfl
        exact hs
    · show ((joinSep sep (st.buf ++ [s])).length : Int) ≤
        st.total + (s.length : Int) + (if st.buf ≠ [] then (sep.length : Int) else 0)
      by_cases hb : st.buf = []
      · rw [if_neg (fun h => h hb)] at hJapp ⊢
        omega
      · rw [if_pos hb] at hJapp ⊢
        omega
    · show (joinSep sep (st.buf ++ [s])).length ≤ cs
      by_cases hb : st.buf = []
      · rw [hb, List.nil_append]
        exact le_of_lt hs.2
      · have hcc : ¬ (st.total + (s.length : Int) +
            (if st.buf ≠ [] then (sep.length : Int) else 0) > (cs : Int)) :=
          fun hgt => hb (hc hgt)
        rw [if_pos hb] at hJapp hcc
        omega

theorem foldl_mergeStep_MBInv (cs co : Nat) (sep : List Char) (splits : List (List Char))
    (h : ∀ p ∈ splits, p ≠ [] ∧ p.length < cs) :
    ∀ st0 : MState, MBInv cs sep st0 →
      MBInv cs sep (splits.foldl (mergeStep cs co sep) st0) := by
  induction splits with
  | nil => intro st0 h0; exact h0
  | cons s rest ih =>
    intro st0 h0
    simp only [List.foldl_cons]
    exact ih (fun p hp => h p (List.mem_cons_of_mem s hp))
      (mergeStep cs co sep st0 s)
      (mergeStep_MBInv cs co sep st0 s h0 (h s (List.mem_cons_self s rest)))

theorem mergeSplits_bound (cs co : Nat) (sep : List Char) (splits : List (List Char))
    (h : ∀ p ∈ splits, p ≠ [] ∧ p.length < cs) :
    ∀ d ∈ mergeSplits cs co sep splits, d.length ≤ cs := by
  have hinv : MBInv cs sep (splits.foldl (mergeStep cs co sep) ⟨[], [], 0⟩) := by
    apply foldl_mergeStep_MBInv cs co sep splits h
    exact ⟨fun d hd => ((List.not_mem_nil d) hd).elim,
      fun p hp => ((List.not_mem_nil p) hp).elim, by simp [joinSep], by simp [joinSep]⟩
  obtain ⟨hdocs, hpieces, hle, hfit⟩ := hinv
  intro d hd
  rw [mergeSplits_eq] at hd
  match hj : joinDocs sep ((splits.foldl (mergeStep cs co sep) ⟨[], [], 0⟩).buf) with
  | none =>
    rw [hj] at hd
    exact hdocs d hd
  | some d2 =>
    rw [hj] at hd
    rcases List.mem_append.mp hd with hmem | hmem
    · exact hdocs d hmem
    · rcases List.mem_singleton.mp hmem with rfl
      exact le_trans (joinDocs_length_le sep _ d hj) hfit

theorem chooseSep_snd_of_fst_nil (text : List Char) :
    ∀ seps : List (List Char),
      (chooseSep text seps).1 = [] → (chooseSep text seps).2 = [] := by
  intro seps
  induction seps with
  | nil => intro _; rfl
  | cons s rest ih =>
    intro h
    by_cases hs : s = []
    · have hc : chooseSep text (s :: rest) = ([], []) := by
        unfold chooseSep; rw [if_pos hs]
      rw [hc]
    · by_cases hinf : s <:+: text
      · have hc : chooseSep text (s :: rest) = (s, rest) := by
          unfold chooseSep; rw [if_neg hs, if_pos hinf]
        rw [hc] at h
        exact absurd h hs
      · cases rest with
        | nil =>
          have hc : chooseSep text [s] = (s, []) := by
            unfold chooseSep; rw [if_neg hs, if_neg hinf]
          rw [hc] at h
          exact absurd h hs
        | cons t r2 =>
          have hc : chooseSep text (s :: t :: r2) = chooseSep text (t :: r2) := by
            have hunf : chooseSep text (s :: t :: r2) =
                (if s = [] then ([], [])
                 else if s <:+: text then (s, t :: r2)
                 else chooseSep text (t :: r2)) := rfl
            rw [hunf, if_neg hs, if_neg hinf]
          rw [hc] at h ⊢
          exact ih h

theorem goSplits_nil (cs co : Nat) (sep : List Char)
    (recurse : Option (List Char → List (List Char))) (good : List (List Char)) :
    goSplits cs co sep recurse [] good =
      (if good = [] then [] else mergeSplits cs co sep good) := rfl

theorem goSplits_cons (cs co : Nat) (sep : List Char)
    (recurse : Option (List Char → List (List Char)))
    (s : List Char) (rest good : List (List Char)) :
    goSplits cs co sep recurse (s :: rest) good =
      (if s.length < cs then goSplits cs co sep recurse rest (good ++ [s])
       else
         (if good = [] then [] else mergeSplits cs co sep good) ++
           (match recurse with | none => [s] | some f => f s) ++
           goSplits cs co sep recurse rest []) := by
  cases recurse with
  | none => rfl
  | some f => rfl

theorem goSplits_mem (cs co : Nat) (sep : List Char)
    (recurse : Option (List Char → List (List Char))) :
    ∀ (splits good : List (List Char)) (c : List Char),
      c ∈ goSplits cs co sep recurse splits good →
      (∃ run : List (List Char),
        (∀ p ∈ run, p ∈ good ∨ (p ∈ splits ∧ p.length < cs)) ∧
        c ∈ mergeSplits cs co sep run) ∨
      (∃ s ∈ splits, cs ≤ s.length ∧
        ((recurse = none ∧ c = s) ∨ ∃ f, recurse = some f ∧ c ∈ f s)) := by
  intro splits
  induction splits with
  | nil =>
    intro good c hc
    rw [goSplits_nil] at hc
    by_cases hg : good = []
    · rw [if_pos hg] at hc
      exact absurd hc (List.not_mem_nil c)
    · rw [if_neg hg] at hc
      exact Or.inl ⟨good, fun p hp => Or.inl hp, hc⟩
  | cons s rest ih =>
    intro good c hc
    rw [goSplits_cons] at hc
    by_cases hsl : s.length < cs
    · rw [if_pos hsl] at hc
      rcases ih (good ++ [s]) c hc with ⟨run, hrun, hmem⟩ | ⟨s2, hs2, hlen, hkind⟩
      · refine Or.inl ⟨run, ?_, hmem⟩
        intro p hp
        rcases hrun p hp with hpg | ⟨hpr, hplt⟩
        · rcases List.mem_append.mp hpg with hg1 | hg2
          · exact Or.inl hg1
          · rcases List.mem_singleton.mp hg2 with rfl
            exact Or.inr ⟨List.mem_cons_self p rest, hsl⟩
        · exact Or.inr ⟨List.mem_cons_of_mem s hpr, hplt⟩
      · exact Or.inr ⟨s2, List.mem_cons_of_mem s hs2, hlen, hkind⟩
    · rw [if_neg hsl] at hc
      rcases List.mem_append.mp hc with hc1 | hc3
      · rcases List.mem_append.mp hc1 with hcA | hcB
        · by_cases hg : good = []
          · rw [if_pos hg] at hcA
            exact absurd hcA (List.not_mem_nil c)
          · rw [if_neg hg] at hcA
            exact Or.inl ⟨good, fun p hp => Or.inl hp, hcA⟩
        · refine Or.inr ⟨s, List.mem_cons_self s rest, Nat.le_of_not_lt hsl, ?_⟩
          cases recurse with
          | none =>
            rcases List.mem_singleton.mp hcB with rfl
            exact Or.inl ⟨rfl, rfl⟩
          | some f =>
            exact Or.inr ⟨f, rfl, hcB⟩
      · rcases ih [] c hc3 with ⟨run, hrun, hmem⟩ | ⟨s2, hs2, hlen, hkind⟩
        · refine Or.inl ⟨run, ?_, hmem⟩
          intro p hp
          rcases hrun p hp with hpg | ⟨hpr, hplt⟩
          · exact absurd hpg (List.not_mem_nil p)
          · exact Or.inr ⟨List.mem_cons_of_mem s hpr, hplt⟩
        · exact Or.inr ⟨s2, List.mem_cons_of_mem s hs2, hlen, hkind⟩

theorem splitTextAux_eq (fuel cs co : Nat) (seps : List (List Char)) (text : List Char) :
    splitTextAux (fuel + 1) cs co seps text =
      goSplits cs co (chooseSep text seps).1
        (match (chooseSep text seps).2 with
         | [] => none
         | _ :: _ => some (splitTextAux fuel cs co (chooseSep text seps).2))
        (if (chooseSep text seps).1 = [] then text.map (fun c => [c])
         else (splitOnSep (chooseSep text seps).1 text).filter (fun p => !p.isEmpty))
        [] := rfl

theorem splitTextAux_bound :
    ∀ (fuel cs co : Nat) (seps : List (List Char)) (text : List Char), co < cs →
      ∀ c ∈ splitTextAux fuel cs co seps text,
        c.length ≤ cs ∨
          (cs ≤ c.length ∧ c <:+: text ∧ ∀ x ∈ seps, x ≠ [] → ¬ x <:+: c) := by
  intro fuel
  induction fuel with
  | zero =>
    intro cs co seps text _ c hc
    exact absurd hc (List.not_mem_nil c)
  | succ fuel ih =>
    intro cs co seps text hco c hc
    rw [splitTextAux_eq] at hc
    by_cases hsn : (chooseSep text seps).1 = []
    · have hsn2 : (chooseSep text seps).2 = [] := chooseSep_snd_of_fst_nil text seps hsn
      rw [hsn, hsn2, if_pos rfl] at hc
      rcases goSplits_mem cs co [] none (text.map (fun ch => [ch])) [] c hc with
        ⟨run, hrun, hmem⟩ | ⟨s, hsm, hlen, hkind⟩
      · left
        refine mergeSplits_bound cs co [] run ?_ c hmem
        intro p hp
        rcases hrun p hp with hpg | ⟨hpm, hplt⟩
        · exact absurd hpg (List.not_mem_nil p)
        · obtain ⟨ch, -, rfl⟩ := List.mem_map.mp hpm
          exact ⟨by simp, hplt⟩
      · rcases hkind with ⟨-, rfl⟩ | ⟨f, hf, -⟩
        · left
          obtain ⟨ch, -, rfl⟩ := List.mem_map.mp hsm
          have h1 : ([ch] : List Char).length = 1 := rfl
          omega
        · exact absurd hf (by simp)
    · have hseps : seps ≠ [] := by
        intro hnil
        subst hnil
        exact hsn rfl
      rw [if_neg hsn] at hc
      have hsplit_props : ∀ p ∈ (splitOnSep (chooseSep text seps).1 text).filter
          (fun p => !p.isEmpty), p ≠ [] ∧ p <:+: text ∧ ¬ (chooseSep text seps).1 <:+: p := by
        intro p hp
        have hp2 := List.mem_filter.mp hp
        refine ⟨?_, splitOnSep_infix (chooseSep text seps).1 text p hp2.1,
          splitOnSep_no_occ (chooseSep text seps).1 text hsn p hp2.1⟩
        intro hnil
        have hb := hp2.2
        rw [hnil] at hb
        simp at hb
      rcases goSplits_mem cs co (chooseSep text seps).1
          (match (chooseSep text seps).2 with
           | [] => none
           | _ :: _ => some (splitTextAux fuel cs co (chooseSep text seps).2))
          ((splitOnSep (chooseSep text seps).1 text).filter (fun p => !p.isEmpty)) [] c hc
        with ⟨run, hrun, hmem⟩ | ⟨s, hsm, hlen, hkind⟩
      · left
        refine mergeSplits_bound cs co (chooseSep text seps).1 run ?_ c hmem
        intro p hp
        rcases hrun p hp with hpg | ⟨hpm, hplt⟩
        · exact absurd hpg (List.not_mem_nil p)
        · exact ⟨(hsplit_props p hpm).1, hplt⟩
      · obtain ⟨hsne, hsinf, hsnocc⟩ := hsplit_props s hsm
        rcases hkind with ⟨hreq, rfl⟩ | ⟨f, hreq, hcf⟩
        · right
          refine ⟨hlen, hsinf, ?_⟩
          have hsn2 : (chooseSep text seps).2 = [] := by
            cases h2 : (chooseSep text seps).2 with
            | nil => rfl
            | cons a b =>
              rw [h2] at hreq
              have hco2 : some (splitTextAux fuel cs co (a :: b)) =
                  (none : Option (List Char → List (List Char))) := hreq
              exact absurd hco2 (by simp)
          rcases chooseSep_spec text seps hseps with
            ⟨pre, post, heq, hpre, hch⟩ | ⟨pre, heq, hpre, h1, h2⟩ |
            ⟨pre, s0, heq, hpre, hch⟩
          · exact absurd (congrArg Prod.fst hch) hsn
          · intro x hx hxne hxinf
            rw [heq, hsn2] at hx
            rcases List.mem_append.mp hx with hx1 | hx2
            · exact (hpre x hx1).2 (hxinf.trans hsinf)
            · rcases List.mem_singleton.mp hx2 with rfl
              exact hsnocc hxinf
          · intro x hx hxne hxinf
            rw [heq] at hx
            exact (hpre x hx).2 (hxinf.trans hsinf)
        · cases h2 : (chooseSep text seps).2 with
          | nil =>
            rw [h2] at hreq
            have hco2 : (none : Option (List Char → List (List Char))) = some f := hreq
            exact absurd hco2 (by simp)
          | cons a b =>
            rw [h2] at hreq
            have hfe : some (splitTextAux fuel cs co (a :: b)) = some f := hreq
            have hf2 : f = splitTextAux fuel cs co (a :: b) := (Option.some_inj.mp hfe).symm
            rw [hf2] at hcf
            rcases ih cs co (a :: b) s hco c hcf with hle | ⟨hge, hinf, hnocc⟩
            · exact Or.inl hle
            · right
              refine ⟨hge, hinf.trans hsinf, ?_⟩
              rcases chooseSep_spec text seps hseps with
                ⟨pre, post, heq, hpre, hch⟩ | ⟨pre, heq, hpre, hne1, hinf1⟩ |
                ⟨pre, s0, heq, hpre, hch⟩
              · exact absurd (congrArg Prod.fst hch) hsn
              · intro x hx hxne hxinf
                rw [heq, h2] at hx
                rcases List.mem_append.mp hx with hx1 | hx2
                · exact (hpre x hx1).2 (hxinf.trans (hinf.trans hsinf))
                · rcases List.mem_cons.mp hx2 with rfl | hx3
                  · exact hsnocc (hxinf.trans hinf)
                  · exact hnocc x hx3 hxne hxinf
              · have hz : ([] : List (List Char)) = a :: b := by
                  rw [hch] at h2
                  exact h2
                exact absurd hz (by simp)

/-- C5: for all text, chunkSize, and chunkOverlap < chunkSize, every chunk the
Splitter returns either has length at most chunkSize, or is an unsplittable
unit of length at least chunkSize in which no non-empty separator of the
configured list occurs (so no remaining lower-priority separator could have
split it further). -/
theorem splitterChunkLengthBound (cs co : Nat) (seps : List (List Char))
    (text : List Char) (hco : co < cs) :
    ∀ c ∈ splitText cs co seps text,
      c.length ≤ cs ∨ (cs ≤ c.length ∧ ∀ x ∈ seps, x ≠ [] → ¬ x <:+: c) := by
  intro c hc
  rcases splitTextAux_bound (seps.length + 1) cs co seps text hco c hc with
    hle | ⟨h1, -, h3⟩
  · exact Or.inl hle
  · exact Or.inr ⟨h1, h3⟩

/-- C5 witness: with chunkSize 5, chunkOverlap 1 and the single separator " ",
the text "abcdefgh ij" splits into the oversized separator-free chunk
"abcdefgh" and the fitting chunk "ij", and every chunk satisfies the bound. -/
theorem splitterChunkLengthBoundWitness :
    1 < 5 ∧ ∀ c ∈ splitText 5 1 [" ".data] "abcdefgh ij".data,
      c.length ≤ 5 ∨ (5 ≤ c.length ∧ ∀ x ∈ [" ".data], x ≠ [] → ¬ x <:+: c) :=
  ⟨by decide, splitterChunkLengthBound 5 1 [" ".data] "abcdefgh ij".data (by decide)⟩
